import Mathlib

/-!
A shallow embedding of the vidagent filter front-end and graph compiler
(`cmd/vidagent/main.go`): lexer, action builder, time/reason parsers,
segment validator and complex-filter builder, together with theorems
settling the specification claims.

Numeric modelling: Go `float64`/`float32` values are represented as exact
rationals; `strconv.ParseFloat(s, 32)` and int-to-`float64` conversion are
modelled by correct rounding to 24/53 significant bits (round to nearest,
ties to even), which is the documented deterministic behaviour of those
operations.  Comparison of two already-rounded values is exact, so it is
modelled by exact rational comparison.
-/

set_option maxRecDepth 8000

namespace VidAgent

/-- Go `unicode.IsSpace` restricted to its Latin-1 space characters
(`\t`, `\n`, vertical tab, form feed, `\r`, space, U+0085, U+00A0); the
higher-plane Unicode white-space code points are not modelled (no claim
depends on them). -/
def goIsSpace (c : Char) : Bool :=
  c = ' ' || c = '\t' || c = '\n' || c = '\x0b' || c = '\x0c' || c = '\r' ||
    c = '\x85' || c = '\u00A0'

/-- Drop leading space characters (helper for `strings.TrimSpace`). -/
def goTrimLeft : List Char → List Char
  | [] => []
  | c :: r => if goIsSpace c then goTrimLeft r else c :: r

/-- Go `strings.TrimSpace`: drop spaces at both ends. -/
def goTrim (s : List Char) : List Char :=
  (goTrimLeft (goTrimLeft s).reverse).reverse

/-- Go `strings.Split` with a one-character separator.  As in Go, the
result always has at least one part, and `goSplit sep [] = [[]]`. -/
def goSplit (sep : Char) : List Char → List (List Char)
  | [] => [[]]
  | c :: rest =>
    if c = sep then [] :: goSplit sep rest
    else
      match goSplit sep rest with
      | [] => [[c]]
      | p :: ps => (c :: p) :: ps

/-- Numeric value of a decimal digit character. -/
def digitVal (c : Char) : ℕ := c.toNat - 48

/-- Value of a string of decimal digits (most significant first). -/
def decVal (s : List Char) : ℕ := s.foldl (fun a c => 10 * a + digitVal c) 0

/-- Round a rational to an integer: to nearest, ties to even.  The
condition `2*q < 2*⌊q⌋ + 1` says the fractional part is below one half. -/
def rndHalfEven (q : ℚ) : ℤ :=
  let f := ⌊q⌋
  if 2 * q < 2 * f + 1 then f
  else if (2 : ℚ) * f + 1 < 2 * q then f + 1
  else if f % 2 = 0 then f else f + 1

/-- `⌊log₂ q⌋` for positive `q`, via the bit lengths of the numerator and
denominator. -/
def floorLog2 (q : ℚ) : ℤ :=
  let k : ℤ := (Nat.log2 q.num.natAbs : ℤ) - (Nat.log2 q.den : ℤ)
  if (2 : ℚ) ^ k ≤ q then k else k - 1

/-- Round `q` to a binary floating-point value with `prec` significant
bits and minimum exponent `emin` (round to nearest, ties to even;
subnormal results are rounded at the fixed scale `emin - prec + 1`).
Overflow is not handled here; callers check the range. -/
def roundFl (prec : ℕ) (emin : ℤ) (q : ℚ) : ℚ :=
  if q = 0 then 0
  else
    let a := if q < 0 then -q else q
    let e : ℤ := max (floorLog2 a) emin
    let s : ℤ := e - (prec : ℤ) + 1
    rndHalfEven (q * 2 ^ (-s)) * 2 ^ s

/-- Correct rounding to IEEE binary32 (`float32`). -/
def roundF32 (q : ℚ) : ℚ := roundFl 24 (-126) q

/-- Correct rounding to IEEE binary64 (`float64`). -/
def roundF64 (q : ℚ) : ℚ := roundFl 53 (-1022) q

/-- Largest finite `float32` value. -/
def maxF32 : ℚ := (2 ^ 24 - 1) * 2 ^ 104

/-- Wrap an integer to the signed 64-bit range, as Go `int` arithmetic
does on overflow. -/
def i64wrap (n : ℤ) : ℤ := (n + 2 ^ 63) % 2 ^ 64 - 2 ^ 63

/-- Conversion of a Go `int` to `float64`. -/
def f64ofInt (n : ℤ) : ℚ := roundF64 n

/-- `float64` addition: exact sum, correctly rounded. -/
def f64add (a b : ℚ) : ℚ := roundF64 (a + b)

/-- `float64` subtraction: exact difference, correctly rounded. -/
def f64sub (a b : ℚ) : ℚ := roundF64 (a - b)

/-- `Time` from `main.go`: `Hour`, `Minute` are Go `int`s, `Second` is a
`float64`, modelled as an exact rational. -/
structure Time where
  Hour : ℤ
  Minute : ℤ
  Second : ℚ
deriving DecidableEq

instance : Inhabited Time := ⟨⟨0, 0, 0⟩⟩

/-- `Time.SecondNum`: `float64(t.Hour*60*60+t.Minute*60) + t.Second`.
The products and the inner sum are Go `int` (64-bit, wrapping)
arithmetic — composed wrapping steps equal one wrap of the exact value —
and the conversion and the final addition each round to `float64`. -/
def Time.SecondNum (t : Time) : ℚ :=
  f64add (f64ofInt (i64wrap (t.Hour * 60 * 60 + t.Minute * 60))) t.Second

/-- Modelled from the Go standard library: `strconv.Atoi` — optional
sign, decimal digits, error outside the signed 64-bit range. -/
def atoi (s : List Char) : Option ℤ :=
  let p : ℤ × List Char :=
    match s with
    | [] => (1, [])
    | c :: r => if c = '+' then (1, r) else if c = '-' then (-1, r) else (1, c :: r)
  if p.2 = [] || !(p.2.all Char.isDigit) then none
  else
    let v : ℤ := p.1 * decVal p.2
    if v < -(2 ^ 63) || 2 ^ 63 - 1 < v then none else some v

/-- Exact value of the mantissa part of a decimal float literal:
`digits`, `digits.digits`, `digits.` or `.digits`. -/
def mantQ (m : List Char) : Option ℚ :=
  match goSplit '.' m with
  | [i] => if i ≠ [] ∧ i.all Char.isDigit then some (decVal i) else none
  | [i, f] =>
    if i ++ f ≠ [] ∧ (i ++ f).all Char.isDigit then
      some ((decVal (i ++ f) : ℚ) / 10 ^ f.length)
    else none
  | _ => none

/-- Exponent part of a decimal float literal: optional sign and digits. -/
def expZ (s : List Char) : Option ℤ :=
  let p : ℤ × List Char :=
    match s with
    | [] => (1, [])
    | c :: r => if c = '+' then (1, r) else if c = '-' then (-1, r) else (1, c :: r)
  if p.2 = [] || !(p.2.all Char.isDigit) then none else some (p.1 * decVal p.2)

/-- Modelled from the Go standard library: the exact decimal value of a
`strconv.ParseFloat` literal.  Only the plain decimal forms
`[+-]digits[.digits][(e|E)[+-]digits]` are modelled; `inf`, `nan` and
hexadecimal floats are rejected (no claim depends on them). -/
def parseFloatQ (s : List Char) : Option ℚ :=
  if s = [] then none
  else
    let p : ℚ × List Char :=
      match s with
      | [] => (1, [])
      | c :: r => if c = '+' then (1, r) else if c = '-' then (-1, r) else (1, c :: r)
    match goSplit 'e' (p.2.map fun c => if c = 'E' then 'e' else c) with
    | [m] => (mantQ m).map (p.1 * ·)
    | [m, ex] => do
      let v ← mantQ m
      let e ← expZ ex
      pure (p.1 * v * 10 ^ e)
    | _ => none

/-- Modelled from the Go standard library: `strconv.ParseFloat(s, 32)` —
the exact decimal value correctly rounded to `float32`; a value that
rounds beyond the largest finite `float32` is an error (`ErrRange`). -/
def parseFloat32 (s : List Char) : Option ℚ := do
  let v ← parseFloatQ s
  let r := roundF32 v
  if maxF32 < r ∨ r < -maxF32 then none else pure r

/-- Error cases of `ParseTime` (`fmt.Errorf` messages in the source). -/
inductive TimeErr
  | badFormat
  | badHour
  | badMinute
  | badSecond
deriving DecidableEq

/-- `ParseTime` from `main.go`: trim, split on `:`, default empty parts
to `"00"`, then read 1–3 parts as S / M:S / H:M:S.  The empty string
yields the zero `Time`. -/
def ParseTime (timeStr : List Char) : Except TimeErr Time :=
  let ts := goTrim timeStr
  if ts = [] then .ok ⟨0, 0, 0⟩
  else
    let parts := (goSplit ':' ts).map fun pt => if pt = [] then ['0', '0'] else pt
    match parts with
    | [p0] =>
      match parseFloat32 p0 with
      | some sec => .ok ⟨0, 0, sec⟩
      | none => .error .badSecond
    | [p0, p1] =>
      match atoi p0 with
      | none => .error .badMinute
      | some m =>
        match parseFloat32 p1 with
        | some sec => .ok ⟨0, m, sec⟩
        | none => .error .badSecond
    | [p0, p1, p2] =>
      match atoi p0 with
      | none => .error .badHour
      | some h =>
        match atoi p1 with
        | none => .error .badMinute
        | some m =>
          match parseFloat32 p2 with
          | some sec => .ok ⟨h, m, sec⟩
          | none => .error .badSecond
    | _ => .error .badFormat

/-- `Reason` from `main.go`. -/
structure Reason where
  Category : List Char
  Specifier : List Char
deriving DecidableEq

instance : Inhabited Reason := ⟨⟨[], []⟩⟩

/-- Error case of `ParseReason`. -/
inductive ReasonErr
  | badFormat
deriving DecidableEq

/-- `ParseReason` from `main.go`: trim, split on `:`, 1 part → category,
2 parts → category and specifier (both trimmed), more → error. -/
def ParseReason (reasonStr : List Char) : Except ReasonErr Reason :=
  let rs := goTrim reasonStr
  if rs = [] then .ok ⟨[], []⟩
  else
    match goSplit ':' rs with
    | [p0] => .ok ⟨goTrim p0, []⟩
    | [p0, p1] => .ok ⟨goTrim p0, goTrim p1⟩
    | _ => .error .badFormat

/-- Decimal digits of a natural number, most significant first
(the digits of Go `%d` for non-negative values). -/
def natDec (n : ℕ) : List Char :=
  if h : n < 10 then [Char.ofNat (48 + n)]
  else natDec (n / 10) ++ [Char.ofNat (48 + n % 10)]
decreasing_by exact Nat.div_lt_self (by omega) (by omega)

/-- Go `%d` for a (64-bit) integer. -/
def intDec (n : ℤ) : List Char :=
  if n < 0 then '-' :: natDec (-n).toNat else natDec n.toNat

/-- Digits after rounding a non-negative value to hundredths: the
integer part's digits, a dot, and exactly two fractional digits. -/
def fmt2nn (n : ℕ) : List Char :=
  natDec (n / 100) ++ '.' ::
    (if n % 100 < 10 then ['0', Char.ofNat (48 + n % 100)] else natDec (n % 100))

/-- Go `%.2f` of a `float64` value: `fmt` prints the correctly rounded
two-decimal form of the exact binary value (ties to even). -/
def fmt2 (q : ℚ) : List Char :=
  if q < 0 then '-' :: fmt2nn (rndHalfEven (100 * -q)).toNat
  else fmt2nn (rndHalfEven (100 * q)).toNat

/-- `Time.String` from `main.go`: `%d:%d:%2.2f` when `Hour > 0`, else
`%d:%2.2f`.  The verb `%2.2f` is minimum width 2 with two decimals; the
rendered number always has at least four characters, so the width never
pads and the verb behaves as `%.2f`. -/
def Time.string (t : Time) : List Char :=
  if t.Hour > 0 then
    intDec t.Hour ++ ':' :: intDec t.Minute ++ ':' :: fmt2 t.Second
  else intDec t.Minute ++ ':' :: fmt2 t.Second

/-- `Time.SecondString` from `main.go`: `%.2f` of `SecondNum`. -/
def Time.SecondString (t : Time) : List Char := fmt2 t.SecondNum

/-- `token` from `main.go`: a scanned value with its 1-based line number
and 1-based column of the first retained character; `charPos = -1` marks
an in-progress token whose first character has not been seen yet. -/
structure Token where
  val : List Char
  linePos : ℕ
  charPos : ℤ
deriving DecidableEq

instance : Inhabited Token := ⟨⟨[], 0, 0⟩⟩

/-- The lexer's four-field state (the `field` string variable of
`getTokens`).  The `default` branch of the Go `switch` – the defensive
`unexpected state` error – is unreachable and has no counterpart in this
four-constructor type. -/
inductive Field
  | verb
  | tstart
  | tend
  | reason
deriving DecidableEq

/-- A fresh in-progress token on line `ln`
(`token{linePos: lineNum, charPos: -1}`). -/
def newTk (ln : ℕ) : Token := ⟨[], ln, -1⟩

/-- `saveTkn`'s trimming of the accumulated value before appending. -/
def mkTok (tk : Token) : Token := { tk with val := goTrim tk.val }

/-- Append character `c` at 0-based index `n` to the in-progress token,
recording the 1-based column if this is its first character. -/
def pushChar (tk : Token) (n : ℕ) (c : Char) : Token :=
  { tk with
    charPos := if tk.charPos = -1 then (n : ℤ) + 1 else tk.charPos,
    val := tk.val ++ [c] }

/-- The body of `getTokens`' per-line character loop: process the
remaining characters in field `f` with in-progress token `tk` at 0-based
index `n`, returning the tokens still to be emitted on this line.
`#` abandons the line without emitting the pending token; a field's
terminator (space / `-` / `(` with non-empty accumulator, or `)` in the
reason field unconditionally) finalizes the pending token and advances
the field; otherwise the shared tail of the Go loop body runs — skip the
character if it is a space and the accumulator is empty, else append it
(that tail is inlined into each of the four branches here). At end of
line a non-empty pending value is emitted trimmed. -/
def lexLineAux (ln : ℕ) (f : Field) (tk : Token) (n : ℕ) : List Char → List Token
  | [] => if tk.val ≠ [] then [mkTok tk] else []
  | c :: rest =>
    if c = '#' then []
    else
      match f with
      | .verb =>
        if goIsSpace c ∧ tk.val ≠ [] then
          mkTok tk :: lexLineAux ln .tstart (newTk ln) (n + 1) rest
        else if tk.val = [] ∧ goIsSpace c then lexLineAux ln .verb tk (n + 1) rest
        else lexLineAux ln .verb (pushChar tk n c) (n + 1) rest
      | .tstart =>
        if c = '-' ∧ tk.val ≠ [] then
          mkTok tk :: lexLineAux ln .tend (newTk ln) (n + 1) rest
        else if tk.val = [] ∧ goIsSpace c then lexLineAux ln .tstart tk (n + 1) rest
        else lexLineAux ln .tstart (pushChar tk n c) (n + 1) rest
      | .tend =>
        if c = '(' ∧ tk.val ≠ [] then
          mkTok tk :: lexLineAux ln .reason (newTk ln) (n + 1) rest
        else if tk.val = [] ∧ goIsSpace c then lexLineAux ln .tend tk (n + 1) rest
        else lexLineAux ln .tend (pushChar tk n c) (n + 1) rest
      | .reason =>
        if c = ')' then [mkTok tk]
        else if tk.val = [] ∧ goIsSpace c then lexLineAux ln .reason tk (n + 1) rest
        else lexLineAux ln .reason (pushChar tk n c) (n + 1) rest

/-- Lex one line: start in the verb field with a fresh token at index 0. -/
def lexLine (ln : ℕ) (cs : List Char) : List Token :=
  lexLineAux ln .verb (newTk ln) 0 cs

/-- The scanner loop of `getTokens`, with 1-based line numbers. -/
def gtGo (ln : ℕ) : List (List Char) → List Token
  | [] => []
  | l :: ls => lexLine ln l ++ gtGo (ln + 1) ls

/-- `getTokens` from `main.go`, over the scanner's list of lines.  The
Go version can additionally return the scanner's I/O error, which has no
counterpart in this pure model. -/
def getTokens (lines : List (List Char)) : List Token :=
  gtGo 1 lines

/-- `Verb` is a string in the source (`type Verb string`). -/
abbrev Verb := List Char

/-- `CutVerb = "cut"`. -/
def CutVerb : Verb := ['c', 'u', 't']

/-- `MuteVerb = "mute"`. -/
def MuteVerb : Verb := ['m', 'u', 't', 'e']

/-- The fixed verb vocabulary (`var verbs = map[string]Verb{...}`). -/
def verbs (s : List Char) : Option Verb :=
  if s = CutVerb then some CutVerb
  else if s = MuteVerb then some MuteVerb
  else none

/-- `action` from `main.go`.  The `end` field is named `endT` because
`end` is a Lean keyword. -/
structure Action where
  tokens : List Token
  verb : Verb
  start : Time
  endT : Time
  reason : Reason
deriving DecidableEq

instance : Inhabited Action := ⟨⟨[], [], default, default, default⟩⟩

/-- The Go zero value of `action` (`var act action`, and `act = action{}`
on a line change). -/
def act0 : Action := ⟨[], [], ⟨0, 0, 0⟩, ⟨0, 0, 0⟩, ⟨[], []⟩⟩

/-- Errors of `getActions` (`fmt.Errorf` messages in the source). -/
inductive ABErr
  | unrecognizedVerb (line : ℕ) (col : ℤ) (val : List Char)
  | invalidStartTime (e : TimeErr)
  | invalidEndTime (e : TimeErr)
  | invalidReason (e : ReasonErr)
  | unexpectedTokenCount (line : ℕ) (count : ℕ)
deriving DecidableEq

/-- Go `strings.ToLower`, restricted to the ASCII mapping of
`Char.toLower` (the verb vocabulary is ASCII). -/
def toLowerL (s : List Char) : List Char := s.map Char.toLower

/-- The token loop of `getActions`: `line` is the current line number
(initially 1), `act` the action under construction.  A token on a later
line flushes the non-empty current action; the switch on the number of
tokens already collected routes the token to verb / start / end / reason,
and a fifth token on one line is the unexpected-token-count error. -/
def aGo (line : ℕ) (act : Action) : List Token → Except ABErr (List Action)
  | [] => .ok (if act.tokens = [] then [] else [act])
  | t :: ts =>
    let fl : List Action := if t.linePos > line ∧ act.tokens ≠ [] then [act] else []
    let a : Action := if t.linePos > line then act0 else act
    let ln : ℕ := if t.linePos > line then t.linePos else line
    match a.tokens.length with
    | 0 =>
      match verbs (toLowerL t.val) with
      | some v => (aGo ln { a with verb := v, tokens := a.tokens ++ [t] } ts).map (fl ++ ·)
      | none => .error (.unrecognizedVerb t.linePos t.charPos t.val)
    | 1 =>
      match ParseTime t.val with
      | .ok st => (aGo ln { a with start := st, tokens := a.tokens ++ [t] } ts).map (fl ++ ·)
      | .error e => .error (.invalidStartTime e)
    | 2 =>
      match ParseTime t.val with
      | .ok et => (aGo ln { a with endT := et, tokens := a.tokens ++ [t] } ts).map (fl ++ ·)
      | .error e => .error (.invalidEndTime e)
    | 3 =>
      match ParseReason t.val with
      | .ok r => (aGo ln { a with reason := r, tokens := a.tokens ++ [t] } ts).map (fl ++ ·)
      | .error e => .error (.invalidReason e)
    | _ + 4 => .error (.unexpectedTokenCount t.linePos a.tokens.length)

/-- `getActions` from `main.go`: group the token stream by source line
into actions. -/
def getActions (tokens : List Token) : Except ABErr (List Action) :=
  aGo 1 act0 tokens

/-- Errors of `validateSegmentTimes` (`fmt.Errorf` messages in the
source). -/
inductive VErr
  | noTokens (i : ℕ)
  | outOfOrderWithinAction (line : ℕ)
  | segmentTooShort (line : ℕ)
  | outOfOrderAcrossActions (l1 l2 : ℕ)
  | overlapOrAdjacent (l1 l2 : ℕ)
deriving DecidableEq

/-- The validation threshold: the Go literal `.001` denotes the
`float64` nearest to 1/1000. -/
def threshold : ℚ := roundF64 (1 / 1000)

/-- Line number of an action's first token (`act.tokens[0].linePos`,
only read after the emptiness check). -/
def firstLine (a : Action) : ℕ :=
  match a.tokens with
  | [] => 0
  | t :: _ => t.linePos

/-- The within-action checks of `validateSegmentTimes` for `actions[i]`
(in source order: no tokens, end before start, too short), continuing
with `k` when all pass.  The duration check subtracts in `float64`
(`f64sub`); the order check compares two `float64` values, which is
exact. -/
def withinCheck (i : ℕ) (a : Action) (k : Except VErr Unit) : Except VErr Unit :=
  if a.tokens = [] then .error (.noTokens i)
  else if a.endT.SecondNum < a.start.SecondNum then
    .error (.outOfOrderWithinAction (firstLine a))
  else if f64sub a.endT.SecondNum a.start.SecondNum < threshold then
    .error (.segmentTooShort (firstLine a))
  else k

/-- The across-action checks of `validateSegmentTimes` for the adjacent
pair (`actions[i-1]`, `actions[i]`), run only when `i > 0` (in source
order: the current end before the *previous start*, then the
previous-end-to-current-start gap below the threshold), continuing with
`k` when both pass. -/
def acrossCheck (p a : Action) (k : Except VErr Unit) : Except VErr Unit :=
  if a.endT.SecondNum < p.start.SecondNum then
    .error (.outOfOrderAcrossActions (firstLine p) (firstLine a))
  else if f64sub a.start.SecondNum p.endT.SecondNum < threshold then
    .error (.overlapOrAdjacent (firstLine p) (firstLine a))
  else k

/-- The loop of `validateSegmentTimes`: index `i`, previous action,
remaining actions, first error wins. -/
def vGo : ℕ → Option Action → List Action → Except VErr Unit
  | _, _, [] => .ok ()
  | i, none, a :: rest => withinCheck i a (vGo (i + 1) (some a) rest)
  | i, some p, a :: rest =>
    withinCheck i a (acrossCheck p a (vGo (i + 1) (some a) rest))

/-- `validateSegmentTimes` from `main.go`. -/
def validateSegmentTimes (actions : List Action) : Except VErr Unit :=
  vGo 0 none actions

/-- The three input pads read by the filter's trim statements: original
video `[0:v]`, original audio `[0:a]`, synthetic silence `[1:a]`. -/
inductive Src
  | v0
  | a0
  | a1
deriving DecidableEq

/-- Labels written by filter statements: numbered `videoN` / `audioN`
segment labels and the two terminal outputs `outv` / `outa`. -/
inductive Label
  | video (n : ℕ)
  | audio (n : ℕ)
  | outv
  | outa
deriving DecidableEq

/-- One statement of the generated filter expression, carrying times as
the exact `SecondNum` values (the generated string renders each with
`%.2f` via `SecondString`): an initial `trim=duration=`, a
`trim=start=[:end=],setpts=PTS-STARTPTS`, or a two-input `concat`. -/
inductive Stmt
  | trimDur (src : Src) (dur : ℚ) (out : Label)
  | trim (src : Src) (start : ℚ) (stop : Option ℚ) (out : Label)
  | cat (inA inB : Label) (out : Label)
deriving DecidableEq

/-- One `[0:v]trim=start=..:end=..,setpts[videoN];[X]atrim=...[audioN];`
printf of the source: a video trim from `[0:v]` and an audio trim from
`asrc`, both over the same interval, labelled `n`. -/
def segPair (asrc : Src) (s : ℚ) (e : Option ℚ) (n : ℕ) : List Stmt :=
  [.trim .v0 s e (.video n), .trim asrc s e (.audio n)]

/-- One `[video(n-2)][video(n-1)]concat[video n]; [audio(n-2)][audio(n-1)]
concat=v=0:a=1[audio n];` printf of the source (`prevVidSegment(-2)`,
`prevVidSegment(-1)`, `vidSegment()` after two increments). -/
def catPair (n : ℕ) : List Stmt :=
  [.cat (.video (n - 2)) (.video (n - 1)) (.video n),
   .cat (.audio (n - 2)) (.audio (n - 1)) (.audio n)]

/-- Errors of `buildComplexFilter`. -/
inductive BErr
  | emptyActionList
  | unsupportedVerb (i : ℕ) (v : Verb)
deriving DecidableEq

/-- A Cut's "before it" emission (`if i > 0` in the source): the
original-media segment from the previous action's end to this Cut's
start, and its concat; two counter increments.  Nothing for the first
action. -/
def cutPre (prev : Option Action) (a : Action) (c : ℕ) : ℕ × List Stmt :=
  match prev with
  | some p =>
    (c + 2, segPair .a0 p.endT.SecondNum (some a.start.SecondNum) (c + 1) ++
      catPair (c + 2))
  | none => (c, [])

/-- A Cut's "after it" emission
(`if i < len(actions)-1 && actions[i+1].verb != CutVerb`): the
original-media segment from this Cut's end to the next action's start,
and its concat; nothing when this is the last action or the next action
is also a Cut. -/
def cutPost (a : Action) (next : Option Action) (c : ℕ) : ℕ × List Stmt :=
  match next with
  | some nxt =>
    if nxt.verb ≠ CutVerb then
      (c + 2, segPair .a0 a.endT.SecondNum (some nxt.start.SecondNum) (c + 1) ++
        catPair (c + 2))
    else (c, [])
  | none => (c, [])

/-- A Mute's emission: one segment whose video reads the original
`[0:v]` and whose audio reads the silence input `[1:a]`, both over this
action's interval, plus its concat; two counter increments. -/
def muteEmit (a : Action) (c : ℕ) : ℕ × List Stmt :=
  (c + 2, segPair .a1 a.start.SecondNum (some a.endT.SecondNum) (c + 1) ++
    catPair (c + 2))

/-- The `for i, act := range actions` loop of `buildComplexFilter`:
`prev` is `actions[i-1]` when `i > 0`, the head of the remaining
list is the current action, `rest.head?` is `actions[i+1]`, and `c` is
the segment counter.  Returns the final counter and the emitted
statements.  Any verb other than Cut or Mute is the unsupported-verb
error. -/
def bGo (i : ℕ) (prev : Option Action) (c : ℕ) : List Action → Except BErr (ℕ × List Stmt)
  | [] => .ok (c, [])
  | a :: rest =>
    if a.verb = CutVerb then
      (bGo (i + 1) (some a) (cutPost a rest.head? (cutPre prev a c).1).1 rest).map
        fun r => (r.1, (cutPre prev a c).2 ++ (cutPost a rest.head? (cutPre prev a c).1).2 ++ r.2)
    else if a.verb = MuteVerb then
      (bGo (i + 1) (some a) (muteEmit a c).1 rest).map
        fun r => (r.1, (muteEmit a c).2 ++ r.2)
    else .error (.unsupportedVerb i a.verb)

/-- Assembly of `buildComplexFilter`'s output around the loop result
`r`: the initial segment trims both original tracks to the first
action's start (`trim=duration=`), then the loop's statements, then the
trailing segment from the last action's end with no upper bound, then
the final concat pair writing the terminal `outv` / `outa` labels. -/
def buildAssemble (a0 : Action) (rest : List Action) (r : ℕ × List Stmt) : List Stmt :=
  [.trimDur .v0 a0.start.SecondNum (.video 0),
   .trimDur .a0 a0.start.SecondNum (.audio 0)] ++
    r.2 ++
    segPair .a0 ((a0 :: rest).getLast (List.cons_ne_nil a0 rest)).endT.SecondNum
      none (r.1 + 1) ++
    [.cat (.video r.1) (.video (r.1 + 1)) .outv,
     .cat (.audio r.1) (.audio (r.1 + 1)) .outa]

/-- `buildComplexFilter` from `main.go`: error on an empty list, else
the initial segment, the per-action loop, the trailing segment and the
final concat (`buildAssemble`). -/
def buildComplexFilter (actions : List Action) : Except BErr (List Stmt) :=
  match actions with
  | [] => .error .emptyActionList
  | a0 :: rest => (bGo 0 none 0 (a0 :: rest)).map (buildAssemble a0 rest)

/-! ## Supporting lemmas and claim theorems -/

/-- `fmt2` on a non-negative value whose scaled rounding is the natural
number `m` is the two-decimal rendering of `m`. -/
theorem fmt2_nonneg (q : ℚ) (hq : ¬ q < 0) (m : ℕ)
    (h : rndHalfEven (100 * q) = (m : ℤ)) : fmt2 q = fmt2nn m := by
  unfold fmt2
  rw [if_neg hq, h, Int.toNat_natCast]

/-- C7: for the empty action list the Segment Validator succeeds
(reports no error), and the Graph Compiler fails with
`EmptyActionListError`; emptiness is rejected only at the compiler
stage. -/
theorem c7_empty_list : validateSegmentTimes [] = .ok () ∧
    buildComplexFilter [] = .error .emptyActionList :=
  ⟨rfl, rfl⟩

/-- C6: in every lexer field state (verb, start, end, reason) and for
every in-progress token, encountering `#` abandons the rest of the line
and emits no token for the partially accumulated field (first conjunct:
the remaining emission is empty, whatever follows the `#` — including
inside an open reason annotation, `f = .reason`); consequently the
tokens of the line are exactly those finalized before the `#`, and all
characters after the `#` are irrelevant (second conjunct). -/
theorem c6_hash_abandons_line :
    (∀ ln f tk n rest, lexLineAux ln f tk n ('#' :: rest) = []) ∧
      ∀ ln f tk n pre rest rest2,
        lexLineAux ln f tk n (pre ++ '#' :: rest) =
          lexLineAux ln f tk n (pre ++ '#' :: rest2) := by
  have h1 : ∀ ln f tk n rest, lexLineAux ln f tk n ('#' :: rest) = [] := by
    intro ln f tk n rest
    cases f <;> simp [lexLineAux]
  refine ⟨h1, ?_⟩
  intro ln f tk n pre
  induction pre generalizing f tk n with
  | nil => intro rest rest2; rw [List.nil_append, List.nil_append, h1, h1]
  | cons c pre ih =>
    intro rest rest2
    by_cases hc : c = '#'
    · subst hc
      rw [List.cons_append, List.cons_append, h1, h1]
    · cases f <;>
        simp only [List.cons_append, lexLineAux, if_neg hc] <;>
        split_ifs <;>
        first
          | rfl
          | exact ih _ _ _ _ _
          | (congr 1; exact ih _ _ _ _ _)

/-- C5: for the input line `cut 1:32` (end time omitted) the Lexer
produces the two tokens `cut` and `1:32`, the Action Builder succeeds
with one Cut action whose start parses to 92 seconds and whose end is
the zero `Time` (all fields 0, the Go zero value, never assigned), and
the Segment Validator then fails with the within-action out-of-order
error because the end (0) precedes the start (92). -/
theorem c5_cut_132_end_omitted :
    getTokens [['c', 'u', 't', ' ', '1', ':', '3', '2']] =
        [⟨['c', 'u', 't'], 1, 1⟩, ⟨['1', ':', '3', '2'], 1, 5⟩] ∧
      getActions [⟨['c', 'u', 't'], 1, 1⟩, ⟨['1', ':', '3', '2'], 1, 5⟩] =
        .ok [⟨[⟨['c', 'u', 't'], 1, 1⟩, ⟨['1', ':', '3', '2'], 1, 5⟩],
          CutVerb, ⟨0, 1, 32⟩, ⟨0, 0, 0⟩, ⟨[], []⟩⟩] ∧
      Time.SecondNum ⟨0, 1, 32⟩ = 92 ∧
      Time.SecondNum ⟨0, 0, 0⟩ = 0 ∧
      validateSegmentTimes [⟨[⟨['c', 'u', 't'], 1, 1⟩, ⟨['1', ':', '3', '2'], 1, 5⟩],
          CutVerb, ⟨0, 1, 32⟩, ⟨0, 0, 0⟩, ⟨[], []⟩⟩] =
        .error (.outOfOrderWithinAction 1) := by
  have h2 : roundF32 32 = 32 := by
    norm_num [roundF32, roundFl, floorLog2, rndHalfEven, Nat.log2, max_def]
  have h92 : Time.SecondNum ⟨0, 1, 32⟩ = 92 := by
    norm_num [Time.SecondNum, f64add, f64ofInt, i64wrap, roundF64, roundFl,
      floorLog2, rndHalfEven, Nat.log2, max_def]
  have h0 : Time.SecondNum ⟨0, 0, 0⟩ = 0 := by
    norm_num [Time.SecondNum, f64add, f64ofInt, i64wrap, roundF64, roundFl,
      floorLog2, rndHalfEven, Nat.log2, max_def]
  refine ⟨?_, ?_, h92, h0, ?_⟩
  · simp [getTokens, gtGo, lexLine, lexLineAux, newTk, mkTok, pushChar,
      goIsSpace, goTrim, goTrimLeft]
  · simp [getActions, aGo, act0, verbs, toLowerL, CutVerb, MuteVerb, ParseTime,
      goTrim, goTrimLeft, goIsSpace, goSplit, atoi, decVal, digitVal,
      parseFloat32, parseFloatQ, mantQ, h2, Except.map] <;> norm_num [h2, maxF32]
  · simp [validateSegmentTimes, vGo, withinCheck, acrossCheck, firstLine, h92, h0] <;> norm_num


/-- Every character emitted by `natDec` is a decimal digit. -/
theorem natDec_digits (n : ℕ) : ∀ c ∈ natDec n, c.isDigit = true := by
  induction n using Nat.strong_induction_on with
  | _ n ih =>
    rw [natDec]
    split_ifs with h
    · intro c hc
      rw [List.mem_singleton] at hc
      subst hc
      interval_cases n <;> decide
    · intro c hc
      rw [List.mem_append, List.mem_singleton] at hc
      rcases hc with hc | hc
      · exact ih (n / 10) (Nat.div_lt_self (by omega) (by omega)) c hc
      · subst hc
        have hm : n % 10 < 10 := Nat.mod_lt _ (by omega)
        set k := n % 10 with hk
        clear_value k
        interval_cases k <;> decide

/-- A two-digit number prints as two characters. -/
theorem natDec_len2 (n : ℕ) (h1 : 10 ≤ n) (h2 : n < 100) :
    (natDec n).length = 2 := by
  rw [natDec, dif_neg (by omega)]
  rw [natDec, dif_pos (by omega)]
  simp

/-- A one-digit non-negative integer prints as one character. -/
theorem intDec_len1 (m : ℤ) (h0 : 0 ≤ m) (h : m < 10) :
    (intDec m).length = 1 := by
  rw [intDec, if_neg (by omega)]
  rw [natDec, dif_pos (by omega)]
  simp

/-- `fmt2nn` always renders a dot followed by exactly two digit
characters. -/
theorem fmt2nn_shape (n : ℕ) :
    ∃ frac, fmt2nn n = natDec (n / 100) ++ '.' :: frac ∧ frac.length = 2 ∧
      ∀ c ∈ frac, c.isDigit = true := by
  unfold fmt2nn
  split_ifs with h
  · refine ⟨['0', Char.ofNat (48 + n % 100)], rfl, rfl, ?_⟩
    intro c hc
    rw [List.mem_cons, List.mem_singleton] at hc
    rcases hc with hc | hc
    · subst hc; decide
    · subst hc
      set k := n % 100 with hk
      clear_value k
      interval_cases k <;> decide
  · have hm : n % 100 < 100 := Nat.mod_lt _ (by omega)
    exact ⟨natDec (n % 100), rfl, natDec_len2 _ (by omega) hm, natDec_digits _⟩

/-- `fmt2` always renders some prefix, a dot, and exactly two digit
characters. -/
theorem fmt2_shape (q : ℚ) :
    ∃ whole frac, fmt2 q = whole ++ '.' :: frac ∧ frac.length = 2 ∧
      ∀ c ∈ frac, c.isDigit = true := by
  unfold fmt2
  split_ifs with h
  · obtain ⟨frac, he, hl, hd⟩ := fmt2nn_shape (rndHalfEven (100 * -q)).toNat
    exact ⟨'-' :: natDec ((rndHalfEven (100 * -q)).toNat / 100), frac,
      by rw [he]; rfl, hl, hd⟩
  · obtain ⟨frac, he, hl, hd⟩ := fmt2nn_shape (rndHalfEven (100 * q)).toNat
    exact ⟨natDec ((rndHalfEven (100 * q)).toNat / 100), frac, he, hl, hd⟩

/-- C9 (counterexample): the `Time` with hour 1, minute 5, second 7
renders as `1:5:7.00` — the minute field is a single unpadded character
and the seconds field is `7.00`, so the display is not of the claimed
`H:MM:SS` form with two-digit zero-padded minutes and seconds (no
two-digit `05`/`07` field occurs anywhere in the string). -/
theorem c9_counterexample :
    Time.string ⟨1, 5, 7⟩ = ['1', ':', '5', ':', '7', '.', '0', '0'] ∧
      ¬ ['0', '5'] <:+: ['1', ':', '5', ':', '7', '.', '0', '0'] ∧
      ¬ ['0', '7'] <:+: ['1', ':', '5', ':', '7', '.', '0', '0'] := by
  have h : fmt2 7 = fmt2nn 700 :=
    fmt2_nonneg 7 (by norm_num) 700 (by norm_num [rndHalfEven])
  refine ⟨?_, by decide, by decide⟩
  simp [Time.string, intDec, h, fmt2nn, natDec]

/-- C9 (amended): for every `Time`, the display is `H:M:S` when
`hour > 0` and `M:S` otherwise, where hour and minute render as plain
unpadded decimals (`%d` — a single character for minutes 0–9, never
zero-padded to two digits) and the seconds field always carries exactly
two digits after its decimal point (`%2.2f`, whose width 2 never pads
since the rendered number has at least four characters). -/
theorem c9_amended (t : Time) :
    ∃ whole frac, frac.length = 2 ∧ (∀ c ∈ frac, c.isDigit = true) ∧
      (0 < t.Hour →
        Time.string t =
          intDec t.Hour ++ (':' :: intDec t.Minute) ++ (':' :: whole) ++
            ('.' :: frac)) ∧
      (¬ 0 < t.Hour →
        Time.string t = intDec t.Minute ++ (':' :: whole) ++ ('.' :: frac)) ∧
      (0 ≤ t.Minute → t.Minute < 10 → (intDec t.Minute).length = 1) := by
  obtain ⟨whole, frac, he, hl, hd⟩ := fmt2_shape t.Second
  refine ⟨whole, frac, hl, hd, ?_, ?_, fun h1 h2 => intDec_len1 _ h1 h2⟩
  · intro hh
    rw [Time.string, if_pos hh, he]
    simp
  · intro hh
    rw [Time.string, if_neg hh, he]
    simp


/-- Extend an infix on both sides. -/
theorem infix_embed {α : Type} (s t : List α) {l m : List α} (h : l <:+: m) :
    l <:+: s ++ m ++ t := by
  obtain ⟨x, y, hxy⟩ := h
  exact ⟨s ++ x, y ++ t, by rw [← hxy]; simp⟩

/-- A prefix is an infix. -/
theorem prefix_infix {α : Type} (l r : List α) : l <:+: l ++ r :=
  ⟨[], r, by simp⟩

/-- With only Cut and Mute verbs, the compiler loop cannot fail. -/
theorem bGo_ne_error (rest : List Action) : ∀ i prev c e,
    (∀ a ∈ rest, a.verb = CutVerb ∨ a.verb = MuteVerb) →
    bGo i prev c rest ≠ .error e := by
  induction rest with
  | nil => intro i prev c e _ h; exact absurd h (by rw [bGo]; simp)
  | cons a rest ih =>
    intro i prev c e hv h
    rw [bGo] at h
    rcases hv a (by simp) with hc | hc
    · rw [if_pos hc] at h
      cases hrec : bGo (i + 1) (some a) (cutPost a rest.head? (cutPre prev a c).1).1 rest with
      | ok r => rw [hrec] at h; exact absurd h (by simp [Except.map])
      | error e2 => exact ih _ _ _ _ (fun x hx => hv x (by simp [hx])) hrec
    · rw [if_neg (by simp [hc]; decide), if_pos hc] at h
      cases hrec : bGo (i + 1) (some a) (muteEmit a c).1 rest with
      | ok r => rw [hrec] at h; exact absurd h (by simp [Except.map])
      | error e2 => exact ih _ _ _ _ (fun x hx => hv x (by simp [hx])) hrec

/-- With only Cut and Mute verbs, the compiler loop returns a result. -/
theorem bGo_isOk (rest : List Action) (i : ℕ) (prev : Option Action) (c : ℕ)
    (hv : ∀ a ∈ rest, a.verb = CutVerb ∨ a.verb = MuteVerb) :
    ∃ r, bGo i prev c rest = .ok r := by
  cases h : bGo i prev c rest with
  | ok r => exact ⟨r, rfl⟩
  | error e => exact absurd h (bGo_ne_error rest i prev c e hv)

/-- Processing a Cut action with a previous action emits the "before"
segment over `[prev.end, cut.start)` (with its concat) at the head of
the loop's output. -/
theorem bGo_head_cut (p a : Action) (rest : List Action) (i c : ℕ)
    (r : ℕ × List Stmt) (hok : bGo i (some p) c (a :: rest) = .ok r)
    (hc : a.verb = CutVerb) :
    ∃ n, (segPair .a0 p.endT.SecondNum (some a.start.SecondNum) (n + 1) ++
      catPair (n + 2)) <:+: r.2 := by
  rw [bGo, if_pos hc] at hok
  cases hrec : bGo (i + 1) (some a) (cutPost a rest.head? (cutPre (some p) a c).1).1 rest with
  | error e2 => rw [hrec] at hok; exact absurd hok (by simp [Except.map])
  | ok r2 =>
    rw [hrec] at hok
    simp only [Except.map, Except.ok.injEq] at hok
    refine ⟨c, ?_⟩
    rw [← hok]
    have : (cutPre (some p) a c).2 =
        segPair .a0 p.endT.SecondNum (some a.start.SecondNum) (c + 1) ++ catPair (c + 2) := rfl
    rw [this, List.append_assoc]
    exact prefix_infix _ _

/-- Every Mute action in the loop's input contributes its silence-backed
segment and concat block, contiguously, to the loop's output. -/
theorem bGo_mute (rest : List Action) : ∀ i prev c r,
    bGo i prev c rest = .ok r →
    ∀ j, (hj : j < rest.length) → (rest.get ⟨j, hj⟩).verb = MuteVerb →
    ∃ n, (segPair .a1 (rest.get ⟨j, hj⟩).start.SecondNum
        (some (rest.get ⟨j, hj⟩).endT.SecondNum) (n + 1) ++ catPair (n + 2))
      <:+: r.2 := by
  induction rest with
  | nil => intro _ _ _ _ _ j hj; exact absurd hj (by simp)
  | cons a rest ih =>
    intro i prev c r hok j hj hm
    rw [bGo] at hok
    by_cases hc : a.verb = CutVerb
    · rw [if_pos hc] at hok
      cases hrec : bGo (i + 1) (some a) (cutPost a rest.head? (cutPre prev a c).1).1 rest with
      | error e2 => rw [hrec] at hok; exact absurd hok (by simp [Except.map])
      | ok r2 =>
        rw [hrec] at hok
        simp only [Except.map, Except.ok.injEq] at hok
        cases j with
        | zero =>
          simp only [List.get] at hm
          rw [hc] at hm
          exact absurd hm (by decide)
        | succ j2 =>
          obtain ⟨n, hinf⟩ := ih _ _ _ _ hrec j2 (by simpa using hj) (by simpa using hm)
          refine ⟨n, ?_⟩
          rw [← hok]
          simpa using infix_embed ((cutPre prev a c).2 ++
            (cutPost a rest.head? (cutPre prev a c).1).2) [] (by simpa using hinf)
    · rw [if_neg hc] at hok
      by_cases hmu : a.verb = MuteVerb
      · rw [if_pos hmu] at hok
        cases hrec : bGo (i + 1) (some a) (muteEmit a c).1 rest with
        | error e2 => rw [hrec] at hok; exact absurd hok (by simp [Except.map])
        | ok r2 =>
          rw [hrec] at hok
          simp only [Except.map, Except.ok.injEq] at hok
          cases j with
          | zero =>
            refine ⟨c, ?_⟩
            rw [← hok]
            have : (muteEmit a c).2 =
                segPair .a1 a.start.SecondNum (some a.endT.SecondNum) (c + 1) ++
                  catPair (c + 2) := rfl
            simp only [List.get] at *
            rw [this]
            exact prefix_infix _ _
          | succ j2 =>
            obtain ⟨n, hinf⟩ := ih _ _ _ _ hrec j2 (by simpa using hj) (by simpa using hm)
            refine ⟨n, ?_⟩
            rw [← hok]
            simpa using infix_embed (muteEmit a c).2 [] (by simpa using hinf)
      · rw [if_neg hmu] at hok
        exact absurd hok (by simp)

/-- Every adjacent Cut–Cut pair in the loop's input has the
original-media segment over `[first.end, second.start)` (with its
concat) contiguously in the loop's output — emitted as the second Cut's
"before" block. -/
theorem bGo_cutcut (rest : List Action) : ∀ i prev c r,
    bGo i prev c rest = .ok r →
    ∀ j, (hj : j + 1 < rest.length) →
    (rest.get ⟨j, Nat.lt_of_succ_lt hj⟩).verb = CutVerb →
    (rest.get ⟨j + 1, hj⟩).verb = CutVerb →
    ∃ n, (segPair .a0 (rest.get ⟨j, Nat.lt_of_succ_lt hj⟩).endT.SecondNum
        (some (rest.get ⟨j + 1, hj⟩).start.SecondNum) (n + 1) ++ catPair (n + 2))
      <:+: r.2 := by
  induction rest with
  | nil => intro _ _ _ _ _ j hj; exact absurd hj (by simp)
  | cons a rest ih =>
    intro i prev c r hok j hj h1 h2
    rw [bGo] at hok
    by_cases hc : a.verb = CutVerb
    · rw [if_pos hc] at hok
      cases hrec : bGo (i + 1) (some a) (cutPost a rest.head? (cutPre prev a c).1).1 rest with
      | error e2 => rw [hrec] at hok; exact absurd hok (by simp [Except.map])
      | ok r2 =>
        rw [hrec] at hok
        simp only [Except.map, Except.ok.injEq] at hok
        cases j with
        | zero =>
          cases rest with
          | nil => exact absurd hj (by simp)
          | cons a2 rest2 =>
            obtain ⟨n, hinf⟩ := bGo_head_cut a a2 rest2 (i + 1)
              (cutPost a (a2 :: rest2).head? (cutPre prev a c).1).1 r2 hrec
              (by simpa using h2)
            refine ⟨n, ?_⟩
            rw [← hok]
            simpa using infix_embed ((cutPre prev a c).2 ++
              (cutPost a (a2 :: rest2).head? (cutPre prev a c).1).2) [] (by simpa using hinf)
        | succ j2 =>
          obtain ⟨n, hinf⟩ := ih _ _ _ _ hrec j2 (by simpa using hj)
            (by simpa using h1) (by simpa using h2)
          refine ⟨n, ?_⟩
          rw [← hok]
          simpa using infix_embed ((cutPre prev a c).2 ++
            (cutPost a rest.head? (cutPre prev a c).1).2) [] (by simpa using hinf)
    · rw [if_neg hc] at hok
      by_cases hmu : a.verb = MuteVerb
      · rw [if_pos hmu] at hok
        cases hrec : bGo (i + 1) (some a) (muteEmit a c).1 rest with
        | error e2 => rw [hrec] at hok; exact absurd hok (by simp [Except.map])
        | ok r2 =>
          rw [hrec] at hok
          simp only [Except.map, Except.ok.injEq] at hok
          cases j with
          | zero =>
            simp only [List.get] at h1
            exact absurd h1 hc
          | succ j2 =>
            obtain ⟨n, hinf⟩ := ih _ _ _ _ hrec j2 (by simpa using hj)
              (by simpa using h1) (by simpa using h2)
            refine ⟨n, ?_⟩
            rw [← hok]
            simpa using infix_embed (muteEmit a c).2 [] (by simpa using hinf)
      · rw [if_neg hmu] at hok
        exact absurd hok (by simp)


/-- An infix of the loop output is an infix of the assembled filter. -/
theorem infix_buildAssemble (a0 : Action) (rest : List Action)
    (r : ℕ × List Stmt) (blk : List Stmt) (h : blk <:+: r.2) :
    blk <:+: buildAssemble a0 rest r := by
  unfold buildAssemble
  have h2 := infix_embed
    [Stmt.trimDur .v0 a0.start.SecondNum (.video 0),
     Stmt.trimDur .a0 a0.start.SecondNum (.audio 0)]
    (segPair .a0 ((a0 :: rest).getLast (List.cons_ne_nil a0 rest)).endT.SecondNum
        none (r.1 + 1) ++
      [Stmt.cat (.video r.1) (.video (r.1 + 1)) .outv,
       Stmt.cat (.audio r.1) (.audio (r.1 + 1)) .outa]) h
  simpa [List.append_assoc] using h2

/-- C3: for every validated, non-empty action list over the Cut/Mute
vocabulary, each Mute action contributes exactly one new segment — its
video trim reading the original video input `[0:v]` (`Src.v0`) over
`[start, end]` and its audio trim reading the synthetic silence input
`[1:a]` (`Src.a1`), not the original audio, over the same interval (so
the same duration) — followed by exactly one concatenation of that
segment onto the accumulated segment (`catPair (n+2)` concatenates the
accumulated labels `n` with the new labels `n+1`); the four statements
of this block (`segPair .a1 … (n+1) ++ catPair (n+2)`) appear
contiguously in the compiled filter. -/
theorem c3_mute_uses_silence (acts : List Action)
    (hval : validateSegmentTimes acts = .ok ()) (hne : acts ≠ [])
    (hverbs : ∀ a ∈ acts, a.verb = CutVerb ∨ a.verb = MuteVerb)
    (j : ℕ) (hj : j < acts.length) (hm : (acts.get ⟨j, hj⟩).verb = MuteVerb) :
    ∃ stmts n, buildComplexFilter acts = .ok stmts ∧
      (segPair .a1 (acts.get ⟨j, hj⟩).start.SecondNum
          (some (acts.get ⟨j, hj⟩).endT.SecondNum) (n + 1) ++ catPair (n + 2))
        <:+: stmts := by
  cases acts with
  | nil => exact absurd rfl hne
  | cons a0 rest =>
    obtain ⟨r, hr⟩ := bGo_isOk (a0 :: rest) 0 none 0 hverbs
    obtain ⟨n, hinf⟩ := bGo_mute (a0 :: rest) 0 none 0 r hr j hj hm
    refine ⟨buildAssemble a0 rest r, n, ?_, infix_buildAssemble a0 rest r _ hinf⟩
    rw [buildComplexFilter, hr]
    rfl

/-- C3 witness: the single Mute action `mute` over `[10, 20]` (line 1)
validates, and the compiled filter contains its silence-sourced segment
block. -/
theorem c3_mute_uses_silence_witness :
    validateSegmentTimes [⟨[⟨['m'], 1, 1⟩], MuteVerb, ⟨0, 0, 10⟩, ⟨0, 0, 20⟩, ⟨[], []⟩⟩] =
        .ok () ∧
      [⟨[⟨['m'], 1, 1⟩], MuteVerb, ⟨0, 0, 10⟩, ⟨0, 0, 20⟩, ⟨[], []⟩⟩] ≠
        ([] : List Action) ∧
      (∀ a ∈ [⟨[⟨['m'], 1, 1⟩], MuteVerb, ⟨0, 0, 10⟩, ⟨0, 0, 20⟩, ⟨[], []⟩⟩],
        Action.verb a = CutVerb ∨ Action.verb a = MuteVerb) ∧
      ∃ stmts n,
        buildComplexFilter
            [⟨[⟨['m'], 1, 1⟩], MuteVerb, ⟨0, 0, 10⟩, ⟨0, 0, 20⟩, ⟨[], []⟩⟩] =
          .ok stmts ∧
        (segPair .a1
            (Time.SecondNum ⟨0, 0, 10⟩) (some (Time.SecondNum ⟨0, 0, 20⟩)) (n + 1) ++
          catPair (n + 2)) <:+: stmts := by
  have h10 : Time.SecondNum ⟨0, 0, 10⟩ = 10 := by
    norm_num [Time.SecondNum, f64add, f64ofInt, i64wrap, roundF64, roundFl,
      floorLog2, rndHalfEven, Nat.log2, max_def]
  have h20 : Time.SecondNum ⟨0, 0, 20⟩ = 20 := by
    norm_num [Time.SecondNum, f64add, f64ofInt, i64wrap, roundF64, roundFl,
      floorLog2, rndHalfEven, Nat.log2, max_def]
  have hsub : f64sub 20 10 = 10 := by
    norm_num [f64sub, roundF64, roundFl, floorLog2, rndHalfEven, Nat.log2, max_def]
  have hth : threshold = 1152921504606847 / 1152921504606846976 := by
    norm_num [threshold, roundF64, roundFl, floorLog2, rndHalfEven, Nat.log2, max_def]
  have hval : validateSegmentTimes
      [⟨[⟨['m'], 1, 1⟩], MuteVerb, ⟨0, 0, 10⟩, ⟨0, 0, 20⟩, ⟨[], []⟩⟩] = .ok () := by
    simp [validateSegmentTimes, vGo, withinCheck, acrossCheck, firstLine, h10, h20, hsub, hth]
    norm_num
  exact ⟨hval, by simp, by simp, c3_mute_uses_silence _ hval (by simp) (by simp) 0
    (by simp) (by simp)⟩


/-- The statements of a successful compilation (empty for an error). -/
def stmtsOf (e : Except BErr (List Stmt)) : List Stmt := e.toOption.getD []

/-- C2 (counterexample): for the validated list of two adjacent Cut
actions over `[10, 20]` and `[25, 30]`, the compiler *does* emit an
original-media segment covering `[first.end, second.start) = [20, 25)`:
the trim statements over `[20, 25]` reading `[0:v]` and `[0:a]` are in
the output, refuting "no intervening original-media segment is emitted
between two adjacent Cuts — they fuse". -/
theorem c2_counterexample :
    validateSegmentTimes
        [⟨[⟨['c'], 1, 1⟩], CutVerb, ⟨0, 0, 10⟩, ⟨0, 0, 20⟩, ⟨[], []⟩⟩,
         ⟨[⟨['c'], 2, 1⟩], CutVerb, ⟨0, 0, 25⟩, ⟨0, 0, 30⟩, ⟨[], []⟩⟩] = .ok () ∧
      Stmt.trim .v0 20 (some 25) (.video 1) ∈
        stmtsOf (buildComplexFilter
          [⟨[⟨['c'], 1, 1⟩], CutVerb, ⟨0, 0, 10⟩, ⟨0, 0, 20⟩, ⟨[], []⟩⟩,
           ⟨[⟨['c'], 2, 1⟩], CutVerb, ⟨0, 0, 25⟩, ⟨0, 0, 30⟩, ⟨[], []⟩⟩]) ∧
      Stmt.trim .a0 20 (some 25) (.audio 1) ∈
        stmtsOf (buildComplexFilter
          [⟨[⟨['c'], 1, 1⟩], CutVerb, ⟨0, 0, 10⟩, ⟨0, 0, 20⟩, ⟨[], []⟩⟩,
           ⟨[⟨['c'], 2, 1⟩], CutVerb, ⟨0, 0, 25⟩, ⟨0, 0, 30⟩, ⟨[], []⟩⟩]) := by
  have h10 : Time.SecondNum ⟨0, 0, 10⟩ = 10 := by
    norm_num [Time.SecondNum, f64add, f64ofInt, i64wrap, roundF64, roundFl,
      floorLog2, rndHalfEven, Nat.log2, max_def]
  have h20 : Time.SecondNum ⟨0, 0, 20⟩ = 20 := by
    norm_num [Time.SecondNum, f64add, f64ofInt, i64wrap, roundF64, roundFl,
      floorLog2, rndHalfEven, Nat.log2, max_def]
  have h25 : Time.SecondNum ⟨0, 0, 25⟩ = 25 := by
    norm_num [Time.SecondNum, f64add, f64ofInt, i64wrap, roundF64, roundFl,
      floorLog2, rndHalfEven, Nat.log2, max_def]
  have h30 : Time.SecondNum ⟨0, 0, 30⟩ = 30 := by
    norm_num [Time.SecondNum, f64add, f64ofInt, i64wrap, roundF64, roundFl,
      floorLog2, rndHalfEven, Nat.log2, max_def]
  have hs1 : f64sub 20 10 = 10 := by
    norm_num [f64sub, roundF64, roundFl, floorLog2, rndHalfEven, Nat.log2, max_def]
  have hs2 : f64sub 30 25 = 5 := by
    norm_num [f64sub, roundF64, roundFl, floorLog2, rndHalfEven, Nat.log2, max_def]
  have hs3 : f64sub 25 20 = 5 := by
    norm_num [f64sub, roundF64, roundFl, floorLog2, rndHalfEven, Nat.log2, max_def]
  have hth : threshold = 1152921504606847 / 1152921504606846976 := by
    norm_num [threshold, roundF64, roundFl, floorLog2, rndHalfEven, Nat.log2, max_def]
  refine ⟨?_, ?_, ?_⟩
  · simp [validateSegmentTimes, vGo, withinCheck, acrossCheck, firstLine, h10,
      h20, h25, h30, hs1, hs2, hs3, hth]
    norm_num
  · simp [stmtsOf, buildComplexFilter, bGo, buildAssemble, cutPre, cutPost,
      muteEmit, segPair, catPair, Except.map, Except.toOption, h10, h20, h25,
      h30, CutVerb]
  · simp [stmtsOf, buildComplexFilter, bGo, buildAssemble, cutPre, cutPost,
      muteEmit, segPair, catPair, Except.map, Except.toOption, h10, h20, h25,
      h30, CutVerb]

/-- C2 (amended): for every validated, non-empty action list over the
Cut/Mute vocabulary in which two consecutive actions both have verb Cut,
the compiler emits exactly the *one* original-media segment covering
`[first.end, second.start)` between them — produced as the second Cut's
"before" block (`cutPre`); the first Cut's "after" block is suppressed
when the next action is a Cut, which prevents the interval from being
emitted twice, so the two cuts share a single intervening segment rather
than fusing with none. -/
theorem c2_adjacent_cuts_share_segment (acts : List Action)
    (hval : validateSegmentTimes acts = .ok ()) (hne : acts ≠ [])
    (hverbs : ∀ a ∈ acts, a.verb = CutVerb ∨ a.verb = MuteVerb)
    (j : ℕ) (hj : j + 1 < acts.length)
    (h1 : (acts.get ⟨j, Nat.lt_of_succ_lt hj⟩).verb = CutVerb)
    (h2 : (acts.get ⟨j + 1, hj⟩).verb = CutVerb) :
    ∃ stmts n, buildComplexFilter acts = .ok stmts ∧
      (segPair .a0 (acts.get ⟨j, Nat.lt_of_succ_lt hj⟩).endT.SecondNum
          (some (acts.get ⟨j + 1, hj⟩).start.SecondNum) (n + 1) ++ catPair (n + 2))
        <:+: stmts := by
  cases acts with
  | nil => exact absurd rfl hne
  | cons a0 rest =>
    obtain ⟨r, hr⟩ := bGo_isOk (a0 :: rest) 0 none 0 hverbs
    obtain ⟨n, hinf⟩ := bGo_cutcut (a0 :: rest) 0 none 0 r hr j hj h1 h2
    refine ⟨buildAssemble a0 rest r, n, ?_, infix_buildAssemble a0 rest r _ hinf⟩
    rw [buildComplexFilter, hr]
    rfl

/-- C2 witness: the two-Cut list of the counterexample satisfies the
amended theorem's hypotheses, and the `[20, 25]` before-block of the
second Cut is in the compiled filter. -/
theorem c2_adjacent_cuts_share_segment_witness :
    validateSegmentTimes
        [⟨[⟨['c'], 1, 1⟩], CutVerb, ⟨0, 0, 10⟩, ⟨0, 0, 20⟩, ⟨[], []⟩⟩,
         ⟨[⟨['c'], 2, 1⟩], CutVerb, ⟨0, 0, 25⟩, ⟨0, 0, 30⟩, ⟨[], []⟩⟩] = .ok () ∧
      ∃ stmts n,
        buildComplexFilter
            [⟨[⟨['c'], 1, 1⟩], CutVerb, ⟨0, 0, 10⟩, ⟨0, 0, 20⟩, ⟨[], []⟩⟩,
             ⟨[⟨['c'], 2, 1⟩], CutVerb, ⟨0, 0, 25⟩, ⟨0, 0, 30⟩, ⟨[], []⟩⟩] =
          .ok stmts ∧
        (segPair .a0 (Time.SecondNum ⟨0, 0, 20⟩) (some (Time.SecondNum ⟨0, 0, 25⟩))
            (n + 1) ++ catPair (n + 2)) <:+: stmts := by
  have hval := c2_counterexample.1
  exact ⟨hval, c2_adjacent_cuts_share_segment _ hval (by simp) (by simp) 0
    (by simp) (by simp) (by simp)⟩


/-- The within-action checks of the validator pass for `a`: it has
tokens, its end does not precede its start, and its duration is not
below the threshold. -/
def WithinOK (a : Action) : Prop :=
  a.tokens ≠ [] ∧ ¬ a.endT.SecondNum < a.start.SecondNum ∧
    ¬ f64sub a.endT.SecondNum a.start.SecondNum < threshold

/-- The across-action checks of the validator pass for the adjacent pair
`(p, a)`: the current end does not precede the previous start (the
code's out-of-order condition), and the gap from the previous end to the
current start is at least the threshold. -/
def APairOK (p a : Action) : Prop :=
  ¬ a.endT.SecondNum < p.start.SecondNum ∧
    ¬ f64sub a.start.SecondNum p.endT.SecondNum < threshold

/-- The across-pair conditions the validator loop checks along a list,
starting from the optional previous action `prev`. -/
def OptChain : Option Action → List Action → Prop
  | _, [] => True
  | prev, a :: rest =>
    (∀ p, prev = some p → APairOK p a) ∧ OptChain (some a) rest

/-- Rounding to nearest keeps a negative value non-positive. -/
theorem rndHalfEven_nonpos (q : ℚ) (h : q < 0) : rndHalfEven q ≤ 0 := by
  have hf : ⌊q⌋ < 0 := Int.floor_lt.2 (by exact_mod_cast h)
  unfold rndHalfEven
  dsimp only
  split_ifs <;> omega

/-- Floating-point rounding keeps a negative value non-positive. -/
theorem roundFl_nonpos (prec : ℕ) (emin : ℤ) (q : ℚ) (h : q < 0) :
    roundFl prec emin q ≤ 0 := by
  unfold roundFl
  rw [if_neg (ne_of_lt h)]
  have h1 : q * (2 : ℚ) ^ (-(max (floorLog2 (if q < 0 then -q else q)) emin -
      (prec : ℤ) + 1)) < 0 :=
    mul_neg_of_neg_of_pos h (zpow_pos (by norm_num) _)
  have h2 := rndHalfEven_nonpos _ h1
  have h3 : (0 : ℚ) ≤ (2 : ℚ) ^ (max (floorLog2 (if q < 0 then -q else q)) emin -
      (prec : ℤ) + 1) := le_of_lt (zpow_pos (by norm_num) _)
  exact mul_nonpos_of_nonpos_of_nonneg (by exact_mod_cast h2) h3

/-- The validation threshold is positive. -/
theorem threshold_pos : 0 < threshold := by
  norm_num [threshold, roundF64, roundFl, floorLog2, rndHalfEven, Nat.log2,
    max_def]

/-- If `a < b`, the `float64` difference `a - b` is below the
threshold. -/
theorem f64sub_lt_threshold (a b : ℚ) (h : a < b) : f64sub a b < threshold :=
  lt_of_le_of_lt (roundFl_nonpos 53 (-1022) (a - b) (by linarith)) threshold_pos

/-- A successful validation means every adjacent across-pair check
passed. -/
theorem vGo_ok_chain (l : List Action) : ∀ i prev,
    vGo i prev l = .ok () → OptChain prev l := by
  induction l with
  | nil => intro i prev _; trivial
  | cons a rest ih =>
    intro i prev h
    cases prev with
    | none =>
      simp only [vGo, withinCheck] at h
      split_ifs at h with h1 h2 h3
      all_goals try exact absurd h (by simp)
      exact ⟨by simp, ih _ _ h⟩
    | some p =>
      simp only [vGo, withinCheck, acrossCheck] at h
      split_ifs at h with h1 h2 h3 h4 h5
      all_goals try exact absurd h (by simp)
      refine ⟨?_, ih _ _ h⟩
      intro p2 hp2
      injection hp2 with hp2
      subst hp2
      exact ⟨h4, h5⟩

/-- Extract the across-pair condition of an adjacent pair from a chain. -/
theorem chain_pair (pre : List Action) : ∀ prev (a b : Action) suf,
    OptChain prev (pre ++ a :: b :: suf) → APairOK a b := by
  induction pre with
  | nil => intro prev a b suf h; exact h.2.1 a rfl
  | cons x pre ih => intro prev a b suf h; exact ih _ a b suf h.2

/-- When all earlier pairs pass, the validator reports the first
violating pair, with the out-of-order check applied before the
minimum-gap check. -/
theorem vGo_first_error (pre : List Action) : ∀ i prev (a b : Action) suf,
    (∀ x ∈ pre ++ a :: b :: suf, WithinOK x) →
    OptChain prev (pre ++ [a]) →
    b.start.SecondNum < a.endT.SecondNum →
    vGo i prev (pre ++ a :: b :: suf) =
      .error (if b.endT.SecondNum < a.start.SecondNum
        then .outOfOrderAcrossActions (firstLine a) (firstLine b)
        else .overlapOrAdjacent (firstLine a) (firstLine b)) := by
  induction pre with
  | nil =>
    intro i prev a b suf hw hch hlt
    obtain ⟨ha1, ha2, ha3⟩ := hw a (by simp)
    obtain ⟨hb1, hb2, hb3⟩ := hw b (by simp)
    have hstep : vGo (i + 1) (some a) (b :: suf) =
        .error (if b.endT.SecondNum < a.start.SecondNum
          then .outOfOrderAcrossActions (firstLine a) (firstLine b)
          else .overlapOrAdjacent (firstLine a) (firstLine b)) := by
      simp only [vGo, withinCheck, acrossCheck]
      rw [if_neg hb1, if_neg hb2, if_neg hb3]
      by_cases h4 : b.endT.SecondNum < a.start.SecondNum
      · rw [if_pos h4, if_pos h4]
      · rw [if_neg h4, if_neg h4, if_pos (f64sub_lt_threshold _ _ hlt)]
    rw [List.nil_append]
    cases prev with
    | none =>
      simp only [vGo, withinCheck]
      rw [if_neg ha1, if_neg ha2, if_neg ha3]
      exact hstep
    | some p =>
      obtain ⟨hp4, hp5⟩ := hch.1 p rfl
      simp only [vGo, withinCheck, acrossCheck]
      rw [if_neg ha1, if_neg ha2, if_neg ha3, if_neg hp4, if_neg hp5]
      exact hstep
  | cons x pre ih =>
    intro i prev a b suf hw hch hlt
    obtain ⟨hx1, hx2, hx3⟩ := hw x (by simp)
    have hrec := ih (i + 1) (some x) a b suf
      (fun y hy => hw y (by simp [hy])) hch.2 hlt
    rw [List.cons_append]
    cases prev with
    | none =>
      simp only [vGo, withinCheck]
      rw [if_neg hx1, if_neg hx2, if_neg hx3]
      exact hrec
    | some p =>
      obtain ⟨hp4, hp5⟩ := hch.1 p rfl
      simp only [vGo, withinCheck, acrossCheck]
      rw [if_neg hx1, if_neg hx2, if_neg hx3, if_neg hp4, if_neg hp5]
      exact hrec

/-- Whether a validator result is the out-of-order-across-actions
error. -/
def isOutOfOrderAcross : Except VErr Unit → Bool
  | .error (.outOfOrderAcrossActions _ _) => true
  | _ => false

/-- C1 (counterexample): the two Cut actions over `[10, 20]` (line 1)
and `[15, 25]` (line 2) pass all within-action checks and have
`start[1] = 15 < 20 = end[0]`, yet the validator fails with
`OverlapOrAdjacentError`, not `OutOfOrderAcrossActionsError` — the
code's across-action out-of-order condition is `end[1] < start[0]`
(false here: 25 ≥ 10), not `start[1] < end[0]` as the claim states. -/
theorem c1_counterexample :
    (∀ x ∈ [(⟨[⟨['c'], 1, 1⟩], CutVerb, ⟨0, 0, 10⟩, ⟨0, 0, 20⟩, ⟨[], []⟩⟩ : Action),
        ⟨[⟨['c'], 2, 1⟩], CutVerb, ⟨0, 0, 15⟩, ⟨0, 0, 25⟩, ⟨[], []⟩⟩], WithinOK x) ∧
      Time.SecondNum ⟨0, 0, 15⟩ < Time.SecondNum ⟨0, 0, 20⟩ ∧
      validateSegmentTimes
          [⟨[⟨['c'], 1, 1⟩], CutVerb, ⟨0, 0, 10⟩, ⟨0, 0, 20⟩, ⟨[], []⟩⟩,
           ⟨[⟨['c'], 2, 1⟩], CutVerb, ⟨0, 0, 15⟩, ⟨0, 0, 25⟩, ⟨[], []⟩⟩] =
        .error (.overlapOrAdjacent 1 2) ∧
      isOutOfOrderAcross (validateSegmentTimes
          [⟨[⟨['c'], 1, 1⟩], CutVerb, ⟨0, 0, 10⟩, ⟨0, 0, 20⟩, ⟨[], []⟩⟩,
           ⟨[⟨['c'], 2, 1⟩], CutVerb, ⟨0, 0, 15⟩, ⟨0, 0, 25⟩, ⟨[], []⟩⟩]) = false := by
  have h10 : Time.SecondNum ⟨0, 0, 10⟩ = 10 := by
    norm_num [Time.SecondNum, f64add, f64ofInt, i64wrap, roundF64, roundFl,
      floorLog2, rndHalfEven, Nat.log2, max_def]
  have h20 : Time.SecondNum ⟨0, 0, 20⟩ = 20 := by
    norm_num [Time.SecondNum, f64add, f64ofInt, i64wrap, roundF64, roundFl,
      floorLog2, rndHalfEven, Nat.log2, max_def]
  have h15 : Time.SecondNum ⟨0, 0, 15⟩ = 15 := by
    norm_num [Time.SecondNum, f64add, f64ofInt, i64wrap, roundF64, roundFl,
      floorLog2, rndHalfEven, Nat.log2, max_def]
  have h25 : Time.SecondNum ⟨0, 0, 25⟩ = 25 := by
    norm_num [Time.SecondNum, f64add, f64ofInt, i64wrap, roundF64, roundFl,
      floorLog2, rndHalfEven, Nat.log2, max_def]
  have hs1 : f64sub 20 10 = 10 := by
    norm_num [f64sub, roundF64, roundFl, floorLog2, rndHalfEven, Nat.log2, max_def]
  have hs2 : f64sub 25 15 = 10 := by
    norm_num [f64sub, roundF64, roundFl, floorLog2, rndHalfEven, Nat.log2, max_def]
  have hs3 : f64sub 15 20 = -5 := by
    norm_num [f64sub, roundF64, roundFl, floorLog2, rndHalfEven, Nat.log2, max_def]
  have hth : threshold = 1152921504606847 / 1152921504606846976 := by
    norm_num [threshold, roundF64, roundFl, floorLog2, rndHalfEven, Nat.log2, max_def]
  have hval : validateSegmentTimes
      [⟨[⟨['c'], 1, 1⟩], CutVerb, ⟨0, 0, 10⟩, ⟨0, 0, 20⟩, ⟨[], []⟩⟩,
       ⟨[⟨['c'], 2, 1⟩], CutVerb, ⟨0, 0, 15⟩, ⟨0, 0, 25⟩, ⟨[], []⟩⟩] =
      .error (.overlapOrAdjacent 1 2) := by
    simp [validateSegmentTimes, vGo, withinCheck, acrossCheck, firstLine, h10,
      h20, h15, h25, hs1, hs2, hs3, hth]
    norm_num
  refine ⟨?_, ?_, hval, by rw [hval]; rfl⟩
  · intro x hx
    rw [List.mem_cons, List.mem_singleton] at hx
    rcases hx with hx | hx <;> subst hx <;>
      refine ⟨by simp, ?_, ?_⟩ <;>
      simp [h10, h20, h15, h25, hs1, hs2, hth] <;> norm_num
  · rw [h15, h20]; norm_num

/-- C1 (amended): whenever all actions pass the within-action checks and
some adjacent pair has `start[i+1] < end[i]`, the Segment Validator
fails; and if every earlier adjacent pair passes both across-action
checks, the error is `OutOfOrderAcrossActionsError` exactly when
additionally `end[i+1] < start[i]` (the code's out-of-order condition
compares the current end with the *previous start*), and otherwise
`OverlapOrAdjacentError` from the minimum-gap check; the out-of-order
check is applied before the minimum-gap check. -/
theorem c1_amended (pre : List Action) (a b : Action) (suf : List Action)
    (hw : ∀ x ∈ pre ++ a :: b :: suf, WithinOK x)
    (hlt : b.start.SecondNum < a.endT.SecondNum) :
    validateSegmentTimes (pre ++ a :: b :: suf) ≠ .ok () ∧
      (OptChain none (pre ++ [a]) →
        validateSegmentTimes (pre ++ a :: b :: suf) =
          .error (if b.endT.SecondNum < a.start.SecondNum
            then .outOfOrderAcrossActions (firstLine a) (firstLine b)
            else .overlapOrAdjacent (firstLine a) (firstLine b))) := by
  constructor
  · intro h
    have hch := vGo_ok_chain _ 0 none h
    have hp := chain_pair pre none a b suf hch
    exact hp.2 (f64sub_lt_threshold _ _ hlt)
  · intro hch
    exact vGo_first_error pre 0 none a b suf hw hch hlt

/-- C1 witness: the counterexample pair satisfies the amended theorem's
hypotheses; since `25 = end[1] ≥ start[0] = 10`, the reported error is
the overlap one. -/
theorem c1_amended_witness :
    (∀ x ∈ ([] : List Action) ++
        (⟨[⟨['c'], 1, 1⟩], CutVerb, ⟨0, 0, 10⟩, ⟨0, 0, 20⟩, ⟨[], []⟩⟩ : Action) ::
          (⟨[⟨['c'], 2, 1⟩], CutVerb, ⟨0, 0, 15⟩, ⟨0, 0, 25⟩, ⟨[], []⟩⟩ : Action) :: [],
        WithinOK x) ∧
      Time.SecondNum ⟨0, 0, 15⟩ < Time.SecondNum ⟨0, 0, 20⟩ ∧
      (validateSegmentTimes
          (([] : List Action) ++
            (⟨[⟨['c'], 1, 1⟩], CutVerb, ⟨0, 0, 10⟩, ⟨0, 0, 20⟩, ⟨[], []⟩⟩ : Action) ::
              (⟨[⟨['c'], 2, 1⟩], CutVerb, ⟨0, 0, 15⟩, ⟨0, 0, 25⟩, ⟨[], []⟩⟩ : Action) :: []) ≠
          .ok () ∧
        (OptChain none (([] : List Action) ++
            [⟨[⟨['c'], 1, 1⟩], CutVerb, ⟨0, 0, 10⟩, ⟨0, 0, 20⟩, ⟨[], []⟩⟩]) →
          validateSegmentTimes
              (([] : List Action) ++
                (⟨[⟨['c'], 1, 1⟩], CutVerb, ⟨0, 0, 10⟩, ⟨0, 0, 20⟩, ⟨[], []⟩⟩ : Action) ::
                  (⟨[⟨['c'], 2, 1⟩], CutVerb, ⟨0, 0, 15⟩, ⟨0, 0, 25⟩, ⟨[], []⟩⟩ : Action) :: []) =
            .error
              (if Time.SecondNum ⟨0, 0, 25⟩ < Time.SecondNum ⟨0, 0, 10⟩
                then .outOfOrderAcrossActions
                  (firstLine ⟨[⟨['c'], 1, 1⟩], CutVerb, ⟨0, 0, 10⟩, ⟨0, 0, 20⟩, ⟨[], []⟩⟩)
                  (firstLine ⟨[⟨['c'], 2, 1⟩], CutVerb, ⟨0, 0, 15⟩, ⟨0, 0, 25⟩, ⟨[], []⟩⟩)
                else .overlapOrAdjacent
                  (firstLine ⟨[⟨['c'], 1, 1⟩], CutVerb, ⟨0, 0, 10⟩, ⟨0, 0, 20⟩, ⟨[], []⟩⟩)
                  (firstLine ⟨[⟨['c'], 2, 1⟩], CutVerb, ⟨0, 0, 15⟩, ⟨0, 0, 25⟩, ⟨[], []⟩⟩)))) := by
  have hw := c1_counterexample.1
  have hlt := c1_counterexample.2.1
  exact ⟨by simpa using hw, hlt,
    c1_amended [] _ _ [] (by simpa using hw) hlt⟩


/-- At most how many tokens the rest of a line can still emit from each
lexer state: one per remaining field. -/
def fieldBound : Field → ℕ
  | .verb => 4
  | .tstart => 3
  | .tend => 2
  | .reason => 1

/-- The lexer emits at most one token per remaining field on a line. -/
theorem lexLineAux_length (cs : List Char) : ∀ ln f tk n,
    (lexLineAux ln f tk n cs).length ≤ fieldBound f := by
  induction cs with
  | nil =>
    intro ln f tk n
    cases f <;> simp only [lexLineAux] <;> split_ifs <;>
      simp [fieldBound]
  | cons c rest ih =>
    intro ln f tk n
    cases f <;>
      simp only [lexLineAux] <;> split_ifs <;>
      simp only [fieldBound, List.length_cons, List.length_nil,
        List.length_singleton] <;>
      first
        | omega
        | exact Nat.succ_le_succ (le_trans (ih ln _ _ _) (by decide))
        | exact le_trans (ih ln _ _ _) (by decide)

/-- Every token the line lexer emits carries the line number of its
in-progress token. -/
theorem lexLineAux_linePos (cs : List Char) : ∀ ln f tk n,
    tk.linePos = ln → ∀ t ∈ lexLineAux ln f tk n cs, t.linePos = ln := by
  induction cs with
  | nil =>
    intro ln f tk n htk t ht
    simp only [lexLineAux] at ht
    split_ifs at ht
    · rw [List.mem_singleton] at ht
      subst ht
      exact htk
    · exact absurd ht (by simp)
  | cons c rest ih =>
    intro ln f tk n htk t ht
    cases f <;> simp only [lexLineAux] at ht <;> split_ifs at ht <;>
      (try simp only [List.mem_cons, List.mem_singleton, List.not_mem_nil,
        or_false] at ht) <;>
      first
        | exact ht.elim
        | (subst ht; exact htk)
        | (rcases ht with ht | ht
           · subst ht; exact htk
           · exact ih ln _ _ _ rfl t ht)
        | exact ih ln _ _ _ htk t ht
        | exact ih ln _ (pushChar tk n c) _ htk t ht

/-- Tokens of `lexLine ln cs` all carry line number `ln`. -/
theorem lexLine_linePos (ln : ℕ) (cs : List Char) :
    ∀ t ∈ lexLine ln cs, t.linePos = ln :=
  lexLineAux_linePos cs ln .verb (newTk ln) 0 rfl

/-- Tokens of the scanner loop from line `n` have line numbers at least
`n`. -/
theorem gtGo_linePos (ls : List (List Char)) : ∀ n t, t ∈ gtGo n ls →
    n ≤ t.linePos := by
  induction ls with
  | nil => intro n t ht; exact absurd ht (by simp [gtGo])
  | cons l ls ih =>
    intro n t ht
    simp only [gtGo, List.mem_append] at ht
    rcases ht with ht | ht
    · exact le_of_eq (lexLine_linePos n l t ht).symm
    · exact le_trans (by omega) (ih (n + 1) t ht)

/-- A list whose members share one line number is pairwise
non-decreasing. -/
theorem pairwise_const_line (l : List Token) (c : ℕ)
    (h : ∀ t ∈ l, t.linePos = c) :
    l.Pairwise (fun s t => s.linePos ≤ t.linePos) := by
  induction l with
  | nil => exact List.Pairwise.nil
  | cons a l ih =>
    refine List.Pairwise.cons ?_ (ih fun t ht => h t (by simp [ht]))
    intro b hb
    rw [h a (by simp), h b (by simp [hb])]

/-- The token stream is non-decreasing in line numbers. -/
theorem gtGo_pairwise (ls : List (List Char)) : ∀ n,
    (gtGo n ls).Pairwise (fun s t => s.linePos ≤ t.linePos) := by
  induction ls with
  | nil => intro n; exact List.Pairwise.nil
  | cons l ls ih =>
    intro n
    rw [gtGo, List.pairwise_append]
    refine ⟨pairwise_const_line _ n (lexLine_linePos n l), ih (n + 1), ?_⟩
    intro a ha b hb
    rw [lexLine_linePos n l a ha]
    exact le_trans (by omega) (gtGo_linePos ls (n + 1) b hb)

/-- Every source line contributes at most four tokens to the stream. -/
theorem gtGo_count (ls : List (List Char)) : ∀ n m,
    ((gtGo n ls).filter (fun t => t.linePos = m)).length ≤ 4 := by
  induction ls with
  | nil => intro n m; simp [gtGo]
  | cons l ls ih =>
    intro n m
    rw [gtGo, List.filter_append, List.length_append]
    by_cases hm : m = n
    · subst hm
      have h1 : ((gtGo (m + 1) ls).filter (fun t => t.linePos = m)) = [] := by
        rw [List.filter_eq_nil_iff]
        intro t ht
        have := gtGo_linePos ls (m + 1) t ht
        simp only [decide_eq_true_eq]
        omega
      rw [h1]
      simp only [List.length_nil, Nat.add_zero]
      exact le_trans (List.length_filter_le _ _) (lexLineAux_length l m .verb _ 0)
    · have h1 : ((lexLine n l).filter (fun t => t.linePos = m)) = [] := by
        rw [List.filter_eq_nil_iff]
        intro t ht
        have := lexLine_linePos n l t ht
        simp only [decide_eq_true_eq]
        omega
      rw [h1]
      simpa using ih (n + 1) m


/-- If a mapped `Except` is an error, so is the original. -/
theorem except_map_error {α β γ : Type} (f : α → β) (x : Except γ α) (e : γ)
    (h : x.map f = .error e) : x = .error e := by
  cases x with
  | ok a => exact absurd h (by simp [Except.map])
  | error e2 => simpa [Except.map] using h

/-- On a line-sorted token stream in which no line carries more than
four tokens (and the current action holds the tokens already consumed
from the current line), the action builder never reaches its
unexpected-token-count branch. -/
theorem aGo_no_count (ts : List Token) : ∀ line act,
    ts.Pairwise (fun s u => s.linePos ≤ u.linePos) →
    (∀ u ∈ ts, line ≤ u.linePos) →
    act.tokens.length + (ts.filter (fun u => u.linePos = line)).length ≤ 4 →
    (∀ m, m ≠ line → (ts.filter (fun u => u.linePos = m)).length ≤ 4) →
    ∀ l n, aGo line act ts ≠ .error (.unexpectedTokenCount l n) := by
  induction ts with
  | nil =>
    intro line act _ _ _ _ l n h
    simp [aGo] at h
  | cons t ts ih =>
    intro line act hpw hge hcur hoth l n herr
    have hpw2 := (List.pairwise_cons.1 hpw).2
    have hhead := (List.pairwise_cons.1 hpw).1
    have hall : ∀ m, ((t :: ts).filter (fun u => u.linePos = m)).length ≤ 4 := by
      intro m
      by_cases hm : m = line
      · subst hm; omega
      · exact hoth m hm
    have htail_le : ∀ m, (ts.filter (fun u => u.linePos = m)).length ≤
        ((t :: ts).filter (fun u => u.linePos = m)).length := by
      intro m
      rw [List.filter_cons]
      split_ifs <;> simp
    have hoth2 : ∀ m, m ≠ line → (ts.filter (fun u => u.linePos = m)).length ≤ 4 :=
      fun m hm => le_trans (htail_le m) (hoth m hm)
    simp only [aGo] at herr
    by_cases hf : t.linePos > line
    · -- a token on a later line: flush, restart from the zero action
      have hcnt : (ts.filter (fun u => u.linePos = t.linePos)).length ≤ 3 := by
        have h4 := hall t.linePos
        rw [List.filter_cons, if_pos (by simp)] at h4
        simpa using h4
      simp only [if_pos hf] at herr
      simp only [act0, List.length_nil] at herr
      split at herr
      · -- recognized verb: recurse on the rest with one token collected
        refine ih t.linePos _ hpw2 hhead ?_
          (fun m hm => le_trans (htail_le m) (hall m)) l n
          (except_map_error _ _ _ herr)
        simp only [act0, List.length_append, List.length_singleton,
          List.length_nil]
        omega
      · exact absurd herr (by simp)
    · -- same line (sortedness gives equality)
      have hline : t.linePos = line := by
        have := hge t (by simp)
        omega
      have hcnt : act.tokens.length + 1 +
          (ts.filter (fun u => u.linePos = line)).length ≤ 4 := by
        rw [List.filter_cons, if_pos (by simp [hline])] at hcur
        simp only [List.length_cons] at hcur
        omega
      have hge2 : ∀ u ∈ ts, line ≤ u.linePos := fun u hu => hge u (by simp [hu])
      simp only [if_neg hf] at herr
      split at herr
      · -- 0 tokens so far: the verb branch
        split at herr
        · refine ih line _ hpw2 hge2 ?_ hoth2 l n (except_map_error _ _ _ herr)
          simp only [List.length_append, List.length_singleton]
          omega
        · exact absurd herr (by simp)
      · -- 1 token so far: the start-time branch
        split at herr
        · refine ih line _ hpw2 hge2 ?_ hoth2 l n (except_map_error _ _ _ herr)
          simp only [List.length_append, List.length_singleton]
          omega
        · exact absurd herr (by simp)
      · -- 2 tokens so far: the end-time branch
        split at herr
        · refine ih line _ hpw2 hge2 ?_ hoth2 l n (except_map_error _ _ _ herr)
          simp only [List.length_append, List.length_singleton]
          omega
        · exact absurd herr (by simp)
      · -- 3 tokens so far: the reason branch
        split at herr
        · refine ih line _ hpw2 hge2 ?_ hoth2 l n (except_map_error _ _ _ herr)
          simp only [List.length_append, List.length_singleton]
          omega
        · exact absurd herr (by simp)
      · -- four or more tokens on one line: impossible by the count bound
        omega

/-- C10: the Lexer emits at most four tokens per source line — one each
for the verb, start, end and reason fields (first conjunct, with the
per-line bound stated over the whole token stream) — and consequently,
on any Lexer output, the Action Builder's unexpected-token-count branch
(a fifth token on one line) is unreachable: `getActions` never returns
`UnexpectedTokenCountError` (second conjunct). -/
theorem c10_token_count_unreachable (lines : List (List Char)) :
    (∀ m, ((getTokens lines).filter (fun t => t.linePos = m)).length ≤ 4) ∧
      ∀ l n, getActions (getTokens lines) ≠ .error (.unexpectedTokenCount l n) := by
  refine ⟨fun m => gtGo_count lines 1 m, ?_⟩
  intro l n
  exact aGo_no_count (getTokens lines) 1 act0 (gtGo_pairwise lines 1)
    (gtGo_linePos lines 1) (by simpa [act0] using gtGo_count lines 1 1)
    (fun m _ => gtGo_count lines 1 m) l n


/-- The label a statement writes. -/
def outLabel : Stmt → Label
  | .trimDur _ _ o => o
  | .trim _ _ _ o => o
  | .cat _ _ o => o

/-- The interleaved label sequence `video a, audio a, video (a+1),
audio (a+1), …` for `k` consecutive indices. -/
def pairLabels (a k : ℕ) : List Label :=
  (List.range' a k).bind fun n => [.video n, .audio n]

/-- A concat statement is well-formed when its inputs are consecutively
numbered labels of one kind and its output is the next label of that
kind or the matching terminal output; non-concat statements are
unconstrained. -/
def catOk : Stmt → Prop
  | .cat (.video m) (.video m2) o => m2 = m + 1 ∧ (o = .video (m + 2) ∨ o = .outv)
  | .cat (.audio m) (.audio m2) o => m2 = m + 1 ∧ (o = .audio (m + 2) ∨ o = .outa)
  | .cat _ _ _ => False
  | _ => True

/-- Gluing adjacent `pairLabels` ranges. -/
theorem pairLabels_append (a k1 k2 : ℕ) :
    pairLabels a k1 ++ pairLabels (a + k1) k2 = pairLabels a (k1 + k2) := by
  unfold pairLabels
  rw [← List.append_bind]
  have h := List.range'_append a k1 k2 1
  simp only [Nat.mul_one, one_mul, Nat.add_comm k2 k1] at h
  rw [h]

/-- Gluing in counter form. -/
theorem pairLabels_glue (x y z : ℕ) (hxy : x ≤ y) (hyz : y ≤ z) :
    pairLabels (x + 1) (y - x) ++ pairLabels (y + 1) (z - y) =
      pairLabels (x + 1) (z - x) := by
  have h1 : pairLabels (y + 1) (z - y) = pairLabels ((x + 1) + (y - x)) (z - y) := by
    congr 1
    omega
  rw [h1, pairLabels_append]
  congr 1
  omega

/-- Members of a `pairLabels` range. -/
theorem pairLabels_mem (a k : ℕ) (x : Label) (h : x ∈ pairLabels a k) :
    ∃ n, a ≤ n ∧ n < a + k ∧ (x = .video n ∨ x = .audio n) := by
  unfold pairLabels at h
  rw [List.mem_bind] at h
  obtain ⟨n, hn, hx⟩ := h
  rw [List.mem_range'_1] at hn
  rw [List.mem_cons, List.mem_singleton] at hx
  exact ⟨n, hn.1, hn.2, hx⟩

/-- A `pairLabels` range has no repeated labels. -/
theorem pairLabels_nodup (k : ℕ) : ∀ a, (pairLabels a k).Nodup := by
  induction k with
  | zero => intro a; simp [pairLabels]
  | succ k ih =>
    intro a
    have hsp : pairLabels a (k + 1) =
        .video a :: .audio a :: pairLabels (a + 1) k := by
      unfold pairLabels
      rw [List.range'_succ]
      rfl
    rw [hsp]
    refine List.nodup_cons.2 ⟨?_, List.nodup_cons.2 ⟨?_, ih (a + 1)⟩⟩
    · rw [List.mem_cons]
      rintro (h | h)
      · exact absurd h (by simp)
      · obtain ⟨n, hn1, hn2, hn3⟩ := pairLabels_mem _ _ _ h
        rcases hn3 with hn3 | hn3
        · injection hn3 with hh; omega
        · simp at hn3
    · intro h
      obtain ⟨n, hn1, hn2, hn3⟩ := pairLabels_mem _ _ _ h
      rcases hn3 with hn3 | hn3
      · simp at hn3
      · injection hn3 with hh; omega

/-- `catPair` at an incremented counter, subtraction-free. -/
theorem catPair_eval (c : ℕ) : catPair (c + 2) =
    [.cat (.video c) (.video (c + 1)) (.video (c + 2)),
     .cat (.audio c) (.audio (c + 1)) (.audio (c + 2))] := by
  simp [catPair]

/-- The two-index `pairLabels` range, explicitly. -/
theorem pairLabels_two (c : ℕ) : pairLabels (c + 1) 2 =
    [.video (c + 1), .audio (c + 1), .video (c + 2), .audio (c + 2)] := by
  unfold pairLabels
  rw [List.range'_succ, List.range'_succ]
  rfl

/-- The labels and concat shapes of one segment-plus-concat emission. -/
theorem segcat_spec (asrc : Src) (s : ℚ) (e : Option ℚ) (c : ℕ) :
    (segPair asrc s e (c + 1) ++ catPair (c + 2)).map outLabel =
        pairLabels (c + 1) 2 ∧
      ∀ x ∈ segPair asrc s e (c + 1) ++ catPair (c + 2), catOk x := by
  constructor
  · rw [pairLabels_two, catPair_eval]
    rfl
  · intro x hx
    rw [catPair_eval] at hx
    simp only [segPair, List.mem_append, List.mem_cons,
      List.not_mem_nil, or_false] at hx
    rcases hx with (hx | hx) | (hx | hx) <;> rw [hx] <;> simp [catOk]

/-- The compiler loop only increases the counter, writes exactly the
interleaved fresh labels `video (c+1), audio (c+1), …, video c', audio
c'` in that order, and every concat it emits is well-formed. -/
theorem bGo_labels (rest : List Action) : ∀ i prev c r,
    bGo i prev c rest = .ok r →
    c ≤ r.1 ∧ r.2.map outLabel = pairLabels (c + 1) (r.1 - c) ∧
      ∀ s ∈ r.2, catOk s := by
  induction rest with
  | nil =>
    intro i prev c r h
    simp only [bGo, Except.ok.injEq] at h
    subst h
    refine ⟨le_refl c, ?_, by simp⟩
    simp [pairLabels]
  | cons a rest ih =>
    intro i prev c r hok
    rw [bGo] at hok
    by_cases hc : a.verb = CutVerb
    · rw [if_pos hc] at hok
      cases hrec : bGo (i + 1) (some a) (cutPost a rest.head? (cutPre prev a c).1).1 rest with
      | error e2 => rw [hrec] at hok; exact absurd hok (by simp [Except.map])
      | ok r2 =>
        rw [hrec] at hok
        simp only [Except.map, Except.ok.injEq] at hok
        obtain ⟨ih1, ih2, ih3⟩ := ih _ _ _ _ hrec
        have hpre : ((cutPre prev a c).1 = c ∨ (cutPre prev a c).1 = c + 2) ∧
            (cutPre prev a c).2.map outLabel =
              pairLabels (c + 1) ((cutPre prev a c).1 - c) ∧
            ∀ s ∈ (cutPre prev a c).2, catOk s := by
          cases prev with
          | none => simp [cutPre, pairLabels]
          | some p =>
            obtain ⟨hm, hcat⟩ := segcat_spec .a0 p.endT.SecondNum
              (some a.start.SecondNum) c
            refine ⟨Or.inr rfl, ?_, hcat⟩
            rw [show (cutPre (some p) a c).2 =
              segPair .a0 p.endT.SecondNum (some a.start.SecondNum) (c + 1) ++
                catPair (c + 2) from rfl, hm,
              show (cutPre (some p) a c).1 = c + 2 from rfl]
            congr 1
            omega
        have hpost : ((cutPost a rest.head? (cutPre prev a c).1).1 =
              (cutPre prev a c).1 ∨
            (cutPost a rest.head? (cutPre prev a c).1).1 = (cutPre prev a c).1 + 2) ∧
            (cutPost a rest.head? (cutPre prev a c).1).2.map outLabel =
              pairLabels ((cutPre prev a c).1 + 1)
                ((cutPost a rest.head? (cutPre prev a c).1).1 - (cutPre prev a c).1) ∧
            ∀ s ∈ (cutPost a rest.head? (cutPre prev a c).1).2, catOk s := by
          cases hh : rest.head? with
          | none => simp [cutPost, pairLabels]
          | some nxt =>
            by_cases hv : nxt.verb ≠ CutVerb
            · obtain ⟨hm, hcat⟩ := segcat_spec .a0 a.endT.SecondNum
                (some nxt.start.SecondNum) (cutPre prev a c).1
              rw [show cutPost a (some nxt) (cutPre prev a c).1 =
                ((cutPre prev a c).1 + 2,
                  segPair .a0 a.endT.SecondNum (some nxt.start.SecondNum)
                      ((cutPre prev a c).1 + 1) ++
                    catPair ((cutPre prev a c).1 + 2)) from by
                simp [cutPost, if_pos hv]]
              refine ⟨Or.inr rfl, ?_, hcat⟩
              rw [hm]
              congr 1
              omega
            · rw [show cutPost a (some nxt) (cutPre prev a c).1 =
                ((cutPre prev a c).1, []) from by simp [cutPost, if_neg hv]]
              simp [pairLabels]
        obtain ⟨hpr1, hpr2, hpr3⟩ := hpre
        obtain ⟨hpo1, hpo2, hpo3⟩ := hpost
        have hle1 : c ≤ (cutPre prev a c).1 := by rcases hpr1 with h | h <;> omega
        have hle2 : (cutPre prev a c).1 ≤
            (cutPost a rest.head? (cutPre prev a c).1).1 := by
          rcases hpo1 with h | h <;> omega
        subst hok
        refine ⟨?_, ?_, ?_⟩
        · show c ≤ r2.1
          omega
        · show ((cutPre prev a c).2 ++
              (cutPost a rest.head? (cutPre prev a c).1).2 ++ r2.2).map outLabel =
            pairLabels (c + 1) (r2.1 - c)
          simp only [List.map_append, hpr2, hpo2, ih2]
          rw [List.append_assoc, pairLabels_glue _ _ _ hle2 ih1,
            pairLabels_glue _ _ _ hle1 (le_trans hle2 ih1)]
        · intro s hs
          show catOk s
          simp only [List.mem_append] at hs
          rcases hs with (hs | hs) | hs
          · exact hpr3 s hs
          · exact hpo3 s hs
          · exact ih3 s hs
    · rw [if_neg hc] at hok
      by_cases hmu : a.verb = MuteVerb
      · rw [if_pos hmu] at hok
        cases hrec : bGo (i + 1) (some a) (muteEmit a c).1 rest with
        | error e2 => rw [hrec] at hok; exact absurd hok (by simp [Except.map])
        | ok r2 =>
          rw [hrec] at hok
          simp only [Except.map, Except.ok.injEq] at hok
          obtain ⟨ih1, ih2, ih3⟩ := ih _ _ _ _ hrec
          obtain ⟨hm2, hm3⟩ := segcat_spec .a1 a.start.SecondNum
            (some a.endT.SecondNum) c
          have hm1 : (muteEmit a c).1 = c + 2 := rfl
          rw [hm1] at ih1 ih2
          subst hok
          refine ⟨?_, ?_, ?_⟩
          · show c ≤ r2.1
            omega
          · show ((muteEmit a c).2 ++ r2.2).map outLabel =
              pairLabels (c + 1) (r2.1 - c)
            simp only [List.map_append]
            rw [show (muteEmit a c).2 =
              segPair .a1 a.start.SecondNum (some a.endT.SecondNum) (c + 1) ++
                catPair (c + 2) from rfl, hm2, ih2]
            have h2 : pairLabels (c + 1) 2 = pairLabels (c + 1) (c + 2 - c) := by
              congr 1
              omega
            rw [h2, pairLabels_glue _ _ _ (by omega) ih1]
          · intro s hs
            show catOk s
            simp only [List.mem_append] at hs
            rcases hs with hs | hs
            · exact hm3 s hs
            · exact ih3 s hs
      · rw [if_neg hmu] at hok
        exact absurd hok (by simp)

/-- The assembled filter's label list is the interleaved pair range
`video 0, audio 0, …, video (k+1), audio (k+1)` followed by the terminal
labels. -/
theorem pairLabels_sandwich (k : ℕ) :
    pairLabels 0 1 ++ pairLabels 1 k ++ pairLabels (k + 1) 1 =
      pairLabels 0 (k + 2) := by
  have h1 : pairLabels 0 1 ++ pairLabels 1 k = pairLabels 0 (1 + k) := by
    have h := pairLabels_append 0 1 k
    simpa using h
  have h2 : pairLabels 0 (1 + k) ++ pairLabels (1 + k) 1 =
      pairLabels 0 (1 + k + 1) := by
    have h := pairLabels_append 0 (1 + k) 1
    simpa using h
  rw [h1, show k + 1 = 1 + k from by omega, h2]
  congr 1
  omega

/-- C8: for every validated, non-empty action list over the Cut/Mute
vocabulary, compilation succeeds and the output expression defines the
segment labels in strictly increasing counter order — its output-label
list is exactly `video 0, audio 0, video 1, audio 1, …, video M-1,
audio M-1` followed by the terminal `outv, outa` — so the counter only
increases and no label is defined twice (the label list is duplicate
free); and every concatenation statement in the output takes as inputs
exactly the two most recently produced labels of its track (indices `m`
and `m + 1`) and writes either the next fresh label (`m + 2`) or, for
the final concatenation, the terminal label (`outv` / `outa`). -/
theorem c8_counter_fresh_labels (acts : List Action)
    (hval : validateSegmentTimes acts = .ok ()) (hne : acts ≠ [])
    (hverbs : ∀ a ∈ acts, a.verb = CutVerb ∨ a.verb = MuteVerb) :
    ∃ stmts M, buildComplexFilter acts = .ok stmts ∧
      stmts.map outLabel = pairLabels 0 M ++ [.outv, .outa] ∧
      (stmts.map outLabel).Nodup ∧
      ∀ s ∈ stmts, catOk s := by
  cases acts with
  | nil => exact absurd rfl hne
  | cons a0 rest =>
    obtain ⟨r, hr⟩ := bGo_isOk (a0 :: rest) 0 none 0 hverbs
    obtain ⟨hc1, hc2, hc3⟩ := bGo_labels (a0 :: rest) 0 none 0 r hr
    have hc2' : r.2.map outLabel = pairLabels 1 r.1 := by
      simpa using hc2
    have e1 : pairLabels 0 1 = [.video 0, .audio 0] := by
      unfold pairLabels
      rw [List.range'_succ]
      rfl
    have e2 : pairLabels (r.1 + 1) 1 = [.video (r.1 + 1), .audio (r.1 + 1)] := by
      unfold pairLabels
      rw [List.range'_succ]
      rfl
    have hmap : (buildAssemble a0 rest r).map outLabel =
        pairLabels 0 (r.1 + 2) ++ [.outv, .outa] := by
      unfold buildAssemble
      simp only [List.map_append, List.map_cons, List.map_nil, outLabel,
        segPair, hc2']
      rw [← e1, ← e2, pairLabels_sandwich r.1]
    have hnodup : ((buildAssemble a0 rest r).map outLabel).Nodup := by
      rw [hmap]
      refine List.Nodup.append (pairLabels_nodup _ _) (by simp) ?_
      intro x hx hx2
      obtain ⟨n, _, _, hn⟩ := pairLabels_mem _ _ _ hx
      rcases hn with hn | hn <;> subst hn <;> simp at hx2
    refine ⟨buildAssemble a0 rest r, r.1 + 2, ?_, hmap, hnodup, ?_⟩
    · rw [buildComplexFilter, hr]
      rfl
    · intro s hs
      unfold buildAssemble at hs
      simp only [segPair, List.mem_append, List.mem_cons, List.not_mem_nil,
        or_false] at hs
      rcases hs with (((hs | hs) | hs) | (hs | hs)) | (hs | hs) <;>
        first
        | exact hc3 s hs
        | (rw [hs]; simp [catOk])

/-- C8 witness: for the validated single Mute action over `[10, 20]`,
the compiled filter's labels are `video 0, audio 0, …` up to the
terminal pair and no label repeats, with every concat well-formed. -/
theorem c8_counter_fresh_labels_witness :
    validateSegmentTimes
        [⟨[⟨['m'], 1, 1⟩], MuteVerb, ⟨0, 0, 10⟩, ⟨0, 0, 20⟩, ⟨[], []⟩⟩] =
        .ok () ∧
      [⟨[⟨['m'], 1, 1⟩], MuteVerb, ⟨0, 0, 10⟩, ⟨0, 0, 20⟩, ⟨[], []⟩⟩] ≠
        ([] : List Action) ∧
      (∀ a ∈ [⟨[⟨['m'], 1, 1⟩], MuteVerb, ⟨0, 0, 10⟩, ⟨0, 0, 20⟩, ⟨[], []⟩⟩],
        Action.verb a = CutVerb ∨ Action.verb a = MuteVerb) ∧
      ∃ stmts M,
        buildComplexFilter
            [⟨[⟨['m'], 1, 1⟩], MuteVerb, ⟨0, 0, 10⟩, ⟨0, 0, 20⟩, ⟨[], []⟩⟩] =
          .ok stmts ∧
        stmts.map outLabel = pairLabels 0 M ++ [.outv, .outa] ∧
        (stmts.map outLabel).Nodup ∧
        ∀ s ∈ stmts, catOk s := by
  have h10 : Time.SecondNum ⟨0, 0, 10⟩ = 10 := by
    norm_num [Time.SecondNum, f64add, f64ofInt, i64wrap, roundF64, roundFl,
      floorLog2, rndHalfEven, Nat.log2, max_def]
  have h20 : Time.SecondNum ⟨0, 0, 20⟩ = 20 := by
    norm_num [Time.SecondNum, f64add, f64ofInt, i64wrap, roundF64, roundFl,
      floorLog2, rndHalfEven, Nat.log2, max_def]
  have hsub : f64sub 20 10 = 10 := by
    norm_num [f64sub, roundF64, roundFl, floorLog2, rndHalfEven, Nat.log2, max_def]
  have hth : threshold = 1152921504606847 / 1152921504606846976 := by
    norm_num [threshold, roundF64, roundFl, floorLog2, rndHalfEven, Nat.log2, max_def]
  have hval : validateSegmentTimes
      [⟨[⟨['m'], 1, 1⟩], MuteVerb, ⟨0, 0, 10⟩, ⟨0, 0, 20⟩, ⟨[], []⟩⟩] = .ok () := by
    simp [validateSegmentTimes, vGo, withinCheck, acrossCheck, firstLine, h10,
      h20, hsub, hth]
    norm_num
  exact ⟨hval, by simp, by simp,
    c8_counter_fresh_labels _ hval (by simp) (by simp)⟩


/-- A decimal digit character is not a separator, a sign, an exponent
marker or a space. -/
theorem digit_excl (c : Char) (h : c.isDigit = true) :
    c ≠ ':' ∧ c ≠ '.' ∧ c ≠ 'e' ∧ c ≠ 'E' ∧ c ≠ '+' ∧ c ≠ '-' ∧
      goIsSpace c = false := by
  refine ⟨?_, ?_, ?_, ?_, ?_, ?_, ?_⟩
  · rintro rfl; exact absurd h (by decide)
  · rintro rfl; exact absurd h (by decide)
  · rintro rfl; exact absurd h (by decide)
  · rintro rfl; exact absurd h (by decide)
  · rintro rfl; exact absurd h (by decide)
  · rintro rfl; exact absurd h (by decide)
  · cases hs : goIsSpace c with
    | false => rfl
    | true =>
      exfalso
      simp only [goIsSpace, Bool.or_eq_true, decide_eq_true_eq] at hs
      rcases hs with ((((((hc | hc) | hc) | hc) | hc) | hc) | hc) | hc <;>
        subst hc <;> exact absurd h (by decide)

/-- Trimming leaves a space-free string unchanged (left step). -/
theorem goTrimLeft_eq_self (s : List Char)
    (h : ∀ c ∈ s, goIsSpace c = false) : goTrimLeft s = s := by
  cases s with
  | nil => rfl
  | cons c r => simp [goTrimLeft, h c (List.mem_cons_self c r)]

/-- Trimming leaves a space-free string unchanged. -/
theorem goTrim_eq_self (s : List Char)
    (h : ∀ c ∈ s, goIsSpace c = false) : goTrim s = s := by
  rw [goTrim, goTrimLeft_eq_self s h,
    goTrimLeft_eq_self s.reverse (fun c hc => h c (List.mem_reverse.1 hc)),
    List.reverse_reverse]

/-- Splitting a string with no separator yields the one-part list. -/
theorem goSplit_no_sep (sep : Char) : ∀ s : List Char, sep ∉ s →
    goSplit sep s = [s] := by
  intro s
  induction s with
  | nil => intro _; rfl
  | cons c r ih =>
    intro h
    have hc : ¬ c = sep := by
      intro hc
      exact h (by rw [hc]; exact List.mem_cons_self sep r)
    simp only [goSplit, if_neg hc,
      ih (fun hr => h (List.mem_cons_of_mem c hr))]

/-- Splitting at the first separator occurrence. -/
theorem goSplit_append (sep : Char) : ∀ l1 l2 : List Char, sep ∉ l1 →
    goSplit sep (l1 ++ sep :: l2) = l1 :: goSplit sep l2 := by
  intro l1
  induction l1 with
  | nil =>
    intro l2 _
    simp [goSplit]
  | cons c r ih =>
    intro l2 h
    have hc : ¬ c = sep := by
      intro hc
      exact h (by rw [hc]; exact List.mem_cons_self sep r)
    simp only [List.cons_append, goSplit, List.append_eq, if_neg hc,
      ih l2 (fun hr => h (List.mem_cons_of_mem c hr))]

/-- `strconv.Atoi` on a pure in-range digit string is its decimal
value. -/
theorem atoi_digits (s : List Char) (h1 : s ≠ [])
    (h2 : ∀ c ∈ s, c.isDigit = true)
    (h3 : (decVal s : ℤ) ≤ 2 ^ 63 - 1) :
    atoi s = some ((decVal s : ℤ)) := by
  cases s with
  | nil => exact absurd rfl h1
  | cons c r =>
    have hc := h2 c (List.mem_cons_self c r)
    obtain ⟨_, _, _, _, hp, hm, _⟩ := digit_excl c hc
    have hall : (c :: r).all Char.isDigit = true := List.all_eq_true.2 h2
    simp only [atoi, if_neg hp, if_neg hm, hall, Bool.not_true, Bool.or_false,
      List.cons_ne_nil, decide_False, Bool.false_or, if_false, one_mul]
    have hlow : ¬ (decVal (c :: r) : ℤ) < -2 ^ 63 := by omega
    have hhigh : ¬ 2 ^ 63 - 1 < (decVal (c :: r) : ℤ) := by omega
    simp [hlow, hhigh]
    omega

/-- The `E → e` mapping is the identity on a string without `E`. -/
theorem mapEe_eq_self : ∀ t : List Char, (∀ c ∈ t, c ≠ 'E') →
    t.map (fun c => if c = 'E' then 'e' else c) = t := by
  intro t
  induction t with
  | nil => intro _; rfl
  | cons c r ih =>
    intro h
    simp only [List.map_cons, if_neg (h c (List.mem_cons_self c r)),
      ih (fun x hx => h x (List.mem_cons_of_mem c hx))]

/-- `strconv.ParseFloat(s, 32)` on a plain decimal literal of digits and
dots whose exact value is `v` rounds `v` to `float32`. -/
theorem parseFloat32_digits (s : List Char) (v : ℚ) (h1 : s ≠ [])
    (h2 : ∀ c ∈ s, c.isDigit = true ∨ c = '.')
    (hv : mantQ s = some v)
    (hr : ¬(maxF32 < roundF32 v ∨ roundF32 v < -maxF32)) :
    parseFloat32 s = some (roundF32 v) := by
  have hprops : ∀ c ∈ s, c ≠ 'e' ∧ c ≠ 'E' ∧ c ≠ '+' ∧ c ≠ '-' := by
    intro c hcm
    rcases h2 c hcm with h | h
    · obtain ⟨_, _, he, hE, hp, hm, _⟩ := digit_excl c h
      exact ⟨he, hE, hp, hm⟩
    · subst h
      refine ⟨by decide, by decide, by decide, by decide⟩
  cases s with
  | nil => exact absurd rfl h1
  | cons c r =>
    obtain ⟨he, hE, hp, hm⟩ := hprops c (List.mem_cons_self c r)
    have hEs : ∀ x ∈ c :: r, x ≠ 'E' := fun x hx => (hprops x hx).2.1
    have hes : 'e' ∉ c :: r := fun hmem => (hprops 'e' hmem).1 rfl
    have hmane := mapEe_eq_self (c :: r) hEs
    simp [parseFloat32, parseFloatQ, if_neg hp, if_neg hm, hmane,
      goSplit_no_sep 'e' _ hes, hv, hr]

/-- C4 (counterexample): for the time literal `2:19.2`, the parsed
Time's second is `float32(19.2) = 10066330/2^19`, the total-seconds
value is `72980890/2^19 = 139.20000076…`, and its distance from
`minute*60 + second = 139.2` is `1/1310720 ≈ 7.6e-7`, far above the
claimed `1e-9` tolerance: the seconds field is parsed with
`strconv.ParseFloat(…, 32)` and carries `float32` rounding error. -/
theorem c4_counterexample :
    ParseTime ['2', ':', '1', '9', '.', '2'] =
        .ok ⟨0, 2, 10066330 / 524288⟩ ∧
      Time.SecondNum ⟨0, 2, 10066330 / 524288⟩ = 72980890 / 524288 ∧
      ¬|Time.SecondNum ⟨0, 2, 10066330 / 524288⟩ -
          (2 * 60 + (19 + 2 / 10 : ℚ))| ≤ 1 / 10 ^ 9 := by
  have hr32 : roundF32 (96 / 5) = 10066330 / 524288 := by
    norm_num [roundF32, roundFl, floorLog2, rndHalfEven, Nat.log2, max_def]
  have hsec : Time.SecondNum ⟨0, 2, 10066330 / 524288⟩ = 72980890 / 524288 := by
    norm_num [Time.SecondNum, f64add, f64ofInt, i64wrap, roundF64, roundFl,
      floorLog2, rndHalfEven, Nat.log2, max_def]
  refine ⟨?_, hsec, ?_⟩
  · simp [ParseTime, goTrim, goTrimLeft, goIsSpace, goSplit, atoi, decVal,
      digitVal, parseFloat32, parseFloatQ, mantQ, mapEe_eq_self] <;>
      norm_num [hr32, maxF32]
  · rw [hsec, show (72980890 / 524288 : ℚ) - (2 * 60 + (19 + 2 / 10)) =
      1 / 1310720 from by norm_num, abs_of_pos (by norm_num)]
    norm_num

/-- C4 (amended): for every time literal `M:S` whose minute part is a
digit string (in the 64-bit range) and whose second part is a digit/dot
decimal literal of exact value `v` (in the `float32` range), parsing
succeeds with minute `decVal M` and second `float32(v)` — the exact
decimal value of the seconds field correctly rounded to `float32`, not
to within `1e-9` — and the total-seconds value is the `float64` sum of
the 60-fold minute and that rounded second. -/
theorem c4_second_is_float32 (mstr sstr : List Char) (v : ℚ)
    (hm : mstr ≠ []) (hmd : ∀ c ∈ mstr, c.isDigit = true)
    (hs : sstr ≠ []) (hsd : ∀ c ∈ sstr, c.isDigit = true ∨ c = '.')
    (hv : mantQ sstr = some v)
    (hbound : (decVal mstr : ℤ) ≤ 2 ^ 63 - 1)
    (hrange : ¬(maxF32 < roundF32 v ∨ roundF32 v < -maxF32)) :
    ParseTime (mstr ++ ':' :: sstr) =
        .ok ⟨0, (decVal mstr : ℤ), roundF32 v⟩ ∧
      Time.SecondNum ⟨0, (decVal mstr : ℤ), roundF32 v⟩ =
        f64add (f64ofInt (i64wrap ((decVal mstr : ℤ) * 60))) (roundF32 v) := by
  have hnospace : ∀ c ∈ mstr ++ ':' :: sstr, goIsSpace c = false := by
    intro c hcm
    rcases List.mem_append.1 hcm with h | h
    · exact (digit_excl c (hmd c h)).2.2.2.2.2.2
    · rcases List.mem_cons.1 h with h | h
      · subst h; decide
      · rcases hsd c h with hd | hd
        · exact (digit_excl c hd).2.2.2.2.2.2
        · subst hd; decide
  have htrim := goTrim_eq_self _ hnospace
  have hcolon_m : ':' ∉ mstr := fun hmem => (digit_excl ':' (hmd ':' hmem)).1 rfl
  have hcolon_s : ':' ∉ sstr := by
    intro hmem
    rcases hsd ':' hmem with h | h
    · exact (digit_excl ':' h).1 rfl
    · exact absurd h (by decide)
  have hsplit : goSplit ':' (mstr ++ ':' :: sstr) = [mstr, sstr] := by
    rw [goSplit_append ':' mstr sstr hcolon_m, goSplit_no_sep ':' sstr hcolon_s]
  have hne : ¬ mstr ++ ':' :: sstr = [] := by
    simp [List.append_eq_nil]
  constructor
  · simp only [ParseTime, htrim, if_neg hne, hsplit, List.map_cons,
      List.map_nil, if_neg hm, if_neg hs, atoi_digits mstr hm hmd hbound,
      parseFloat32_digits sstr v hs hsd hv hrange]
  · have hz : (0 : ℤ) * 60 * 60 + (decVal mstr : ℤ) * 60 =
        (decVal mstr : ℤ) * 60 := by ring
    rw [Time.SecondNum, hz]

/-- C4 witness: the amended theorem at the literal `2:19.2`
(minute `2`, seconds literal `19.2` of exact value `96/5`). -/
theorem c4_second_is_float32_witness :
    (['2'] : List Char) ≠ [] ∧
      (∀ c ∈ (['2'] : List Char), c.isDigit = true) ∧
      (['1', '9', '.', '2'] : List Char) ≠ [] ∧
      (∀ c ∈ (['1', '9', '.', '2'] : List Char), c.isDigit = true ∨ c = '.') ∧
      mantQ ['1', '9', '.', '2'] = some (96 / 5) ∧
      (decVal ['2'] : ℤ) ≤ 2 ^ 63 - 1 ∧
      ¬(maxF32 < roundF32 (96 / 5) ∨ roundF32 (96 / 5) < -maxF32) ∧
      (ParseTime (['2'] ++ ':' :: ['1', '9', '.', '2']) =
          .ok ⟨0, (decVal ['2'] : ℤ), roundF32 (96 / 5)⟩ ∧
        Time.SecondNum ⟨0, (decVal ['2'] : ℤ), roundF32 (96 / 5)⟩ =
          f64add (f64ofInt (i64wrap ((decVal ['2'] : ℤ) * 60)))
            (roundF32 (96 / 5))) := by
  have hr32 : roundF32 (96 / 5) = 10066330 / 524288 := by
    norm_num [roundF32, roundFl, floorLog2, rndHalfEven, Nat.log2, max_def]
  have h1 : (['2'] : List Char) ≠ [] := by simp
  have h2 : ∀ c ∈ (['2'] : List Char), c.isDigit = true := by decide
  have h3 : (['1', '9', '.', '2'] : List Char) ≠ [] := by simp
  have h4 : ∀ c ∈ (['1', '9', '.', '2'] : List Char),
      c.isDigit = true ∨ c = '.' := by decide
  have h5 : mantQ ['1', '9', '.', '2'] = some (96 / 5) := by
    simp [mantQ, goSplit, decVal, digitVal] <;> norm_num
  have h6 : (decVal ['2'] : ℤ) ≤ 2 ^ 63 - 1 := by
    simp [decVal, digitVal]
  have h7 : ¬(maxF32 < roundF32 (96 / 5) ∨ roundF32 (96 / 5) < -maxF32) := by
    norm_num [hr32, maxF32]
  exact ⟨h1, h2, h3, h4, h5, h6, h7,
    c4_second_is_float32 ['2'] ['1', '9', '.', '2'] (96 / 5)
      h1 h2 h3 h4 h5 h6 h7⟩

end VidAgent
